import Mathlib

/-!
# Verification of the travel-deal-engine matching core

Shallow embedding of `scripts/data_processor.py`: hotel-name normalization,
numeric coercion, cross-source candidate generation, tiered priority
resolution, record merging, business filtering and value scoring.

Modelling conventions:
* Python `float` values are modelled as `ℚ` (the claims under study concern
  the exact algebraic structure of the computations, not rounding of binary
  floating point).
* Heterogeneous dataframe cells (number / text / missing) are modelled by the
  tagged union `PyVal`.
* Character classes follow the ASCII fragment of Python's `str`/`re`
  semantics (`isAlphanum`, whitespace), which covers all inputs analysed here.
-/

namespace TravelDeal

/-- Python whitespace (`str.strip`, `str.split`, regex `\s`), ASCII fragment. -/
def isSpaceChar (c : Char) : Bool := c.isWhitespace

/-- Regex word character (`\b` boundaries): alphanumeric or underscore. -/
def isWordChar (c : Char) : Bool := c.isAlphanum || c == '_'

/-- Characters kept by `re.sub(r'[^a-zA-Z0-9\s]', '', ...)`. -/
def isKeptChar (c : Char) : Bool := c.isAlphanum || isSpaceChar c

/-- `str.strip()`: remove leading and trailing whitespace. -/
def strip (s : List Char) : List Char :=
  ((s.dropWhile isSpaceChar).reverse.dropWhile isSpaceChar).reverse

/-- The fixed stop-word list removed by `normalize_HOTEL_NAME`. -/
def noiseWords : List (List Char) :=
  [String.toList "hotel", String.toList "resort", String.toList "spa",
   String.toList "suites", String.toList "apartments", String.toList "inn",
   String.toList "boutique", String.toList "luxury", String.toList "grand",
   String.toList "the"]

/-- Emit a completed maximal word-character run (accumulated in reverse):
dropped when it is a stop word, kept verbatim otherwise.  This models one
whole-word regex deletion `re.sub(rf'\b{word}\b', '', _)` for each stop word:
a `\b...\b` occurrence of a stop word is exactly a maximal word-character run
equal to it, and deleting such runs never merges the remaining runs (their
neighbours are non-word characters), so the ten sequential substitutions act
run-wise. -/
def flushRun (cur : List Char) : List Char :=
  if cur.reverse ∈ noiseWords then [] else cur.reverse

/-- Worker for stop-word removal: `cur` is the current word-character run,
reversed. Non-word characters are kept as separators. -/
def removeNoiseAux : List Char → List Char → List Char
  | cur, [] => flushRun cur
  | cur, c :: cs =>
    if isWordChar c then removeNoiseAux (c :: cur) cs
    else flushRun cur ++ c :: removeNoiseAux [] cs

/-- The stop-word removal pass of `normalize_HOTEL_NAME`. -/
def removeNoiseRuns (s : List Char) : List Char := removeNoiseAux [] s

/-- `re.sub(r'[^a-zA-Z0-9\s]', '', s)`. -/
def stripSpecial (s : List Char) : List Char := s.filter isKeptChar

/-- Worker for `str.split()`: maximal non-whitespace runs, in order. -/
def wordsAux : List Char → List Char → List (List Char)
  | cur, [] => if cur.isEmpty then [] else [cur.reverse]
  | cur, c :: cs =>
    if isSpaceChar c then
      if cur.isEmpty then wordsAux [] cs else cur.reverse :: wordsAux [] cs
    else wordsAux (c :: cur) cs

/-- `s.split()` (split on whitespace runs, dropping empties). -/
def wordsOf (s : List Char) : List (List Char) := wordsAux [] s

/-- `' '.join(ws)`. -/
def joinWords : List (List Char) → List Char
  | [] => []
  | [w] => w
  | w :: ws => w ++ ' ' :: joinWords ws

/-- `' '.join(s.split())`: collapse whitespace to single spaces. -/
def collapse (s : List Char) : List Char := joinWords (wordsOf s)

/-- The processing pipeline applied to the lowercased, stripped name:
stop-word removal, then special-character removal, then whitespace
collapsing. -/
def pipelineFin (s : List Char) : List Char :=
  collapse (stripSpecial (removeNoiseRuns s))

/-- `normalize_HOTEL_NAME` on character lists (the guard for non-string
input and the empty-after-strip early return live in the `String` wrapper). -/
def normalizeChars (s : List Char) : List Char :=
  let oc := strip (s.map Char.toLower)
  let fin := pipelineFin oc
  if fin.isEmpty then oc else fin

/-- `normalize_HOTEL_NAME(name)` from `scripts/data_processor.py`: lowercase
and strip, delete each stop word as a whole word, drop characters outside
`[a-zA-Z0-9\s]`, collapse whitespace; fall back to the lowercased stripped
original when the result is empty. -/
def normalize_HOTEL_NAME (name : String) : String :=
  if (strip name.toList).isEmpty then "" else ⟨normalizeChars name.toList⟩

/-! ## Numeric coercion (`extract_numeric`) -/

/-- A heterogeneous dataframe cell: missing (`None`/`NaN`), a number
(`int`/`float`), or text. -/
inductive PyVal where
  | na : PyVal
  | num : ℚ → PyVal
  | str : String → PyVal
deriving DecidableEq, Repr

/-- The regex match of `\d+\.?\d*` anchored at a position whose first
character is a digit: greedy digits, an optional dot, then greedy digits. -/
def numToken (s : List Char) : List Char :=
  let d1 := s.takeWhile Char.isDigit
  match s.dropWhile Char.isDigit with
  | '.' :: r => d1 ++ '.' :: r.takeWhile Char.isDigit
  | _ => d1

/-- Leftmost match of `re.findall(r'(\d+\.?\d*)', s)`: the pattern requires a
leading digit, so the leftmost match starts at the first digit of `s`. -/
def findNumToken : List Char → Option (List Char)
  | [] => none
  | c :: cs => if c.isDigit then some (numToken (c :: cs)) else findNumToken cs

/-- Value of a digit string read in base 10. -/
def digitsToNat (ds : List Char) : ℕ :=
  ds.foldl (fun a c => 10 * a + (c.toNat - 48)) 0

/-- `float(t)` for a token matched by `\d+\.?\d*` (e.g. `"12"`, `"12."`,
`"12.5"`). -/
def tokenToRat (t : List Char) : ℚ :=
  let ip := t.takeWhile Char.isDigit
  match t.dropWhile Char.isDigit with
  | '.' :: fp => (digitsToNat ip : ℚ) + (digitsToNat fp : ℚ) / (10 ^ fp.length : ℚ)
  | _ => (digitsToNat ip : ℚ)

/-- `extract_numeric(val)` from `scripts/data_processor.py`: `0.0` for
missing values, numbers passed through, and for text: commas removed, the
string stripped, and the first `\d+\.?\d*` substring converted to a float,
defaulting to `0.0` when none exists. -/
def extract_numeric : PyVal → ℚ
  | .na => 0
  | .num q => q
  | .str s =>
    let clean := strip (s.toList.filter (fun c => !(c == ',')))
    match findNumToken clean with
    | some t => tokenToRat t
    | none => 0

/-! ## Listings, candidates, and the matching engine -/

/-- One scraped listing row (the columns `match_datasets` reads). -/
structure Row where
  HOTEL_NAME : String
  PRICE : PyVal
  RATING : PyVal
  REVIEW_AMOUNT : PyVal
  DISTANCE : ℚ
  URL : String
deriving DecidableEq, Repr

/-- One entry of `valid_matches_info`: a secondary row together with the
similarity score of its normalized name and the absolute distance delta. -/
structure Cand where
  rowB : Row
  score : ℕ
  dist_delta : ℚ
deriving DecidableEq, Repr

instance : Inhabited Cand :=
  ⟨⟨⟨"", .na, .na, .na, 0, ""⟩, 0, 0⟩⟩

/-- Candidate generation for one primary row, from `match_datasets`:
`names` is the list of distinct normalized secondary names (the iteration
order of `process.extract` over `b_norm_list`), and `scoreFn` the similarity
scorer (`fuzz.token_sort_ratio`), kept abstract.  A distinct name is kept
when its score reaches `threshold`; every secondary row under a kept name
becomes a candidate when its absolute distance delta is within
`dist_tolerance`. -/
def validMatchesInfo (scoreFn : String → String → ℕ) (names : List String)
    (rowsB : List Row) (rowA : Row) (threshold : ℕ) (dist_tolerance : ℚ) :
    List Cand :=
  names.flatMap (fun m =>
    if threshold ≤ scoreFn (normalize_HOTEL_NAME rowA.HOTEL_NAME) m then
      (rowsB.filter (fun rb => normalize_HOTEL_NAME rb.HOTEL_NAME == m)).filterMap
        (fun rb =>
          if |rowA.DISTANCE - rb.DISTANCE| ≤ dist_tolerance then
            some ⟨rb, scoreFn (normalize_HOTEL_NAME rowA.HOTEL_NAME) m,
              |rowA.DISTANCE - rb.DISTANCE|⟩
          else none)
    else [])

/-- Python `max(l, key)`: the first element of `l` whose key is maximal
(junk value on the empty list, which the code never hits). -/
def pyMaxBy (key : ℕ → ℕ) : List ℕ → ℕ
  | [] => 0
  | i :: is => is.foldl (fun b j => if key b < key j then j else b) i

/-- Score of the candidate at index `i` (junk outside range, matching the
list comprehensions over `enumerate(valid_matches_info)`). -/
def candScore (cands : List Cand) (i : ℕ) : ℕ := (cands.getD i default).score

/-- Distance delta of the candidate at index `i`. -/
def candDelta (cands : List Cand) (i : ℕ) : ℚ := (cands.getD i default).dist_delta

/-- `t1 = [i for i, m in enumerate(...) if m['score'] == 100 and
m['dist_delta'] <= dist_tolerance]`. -/
def tier1 (cands : List Cand) (dist_tolerance : ℚ) : List ℕ :=
  (List.range cands.length).filter
    (fun i => candScore cands i == 100 && decide (candDelta cands i ≤ dist_tolerance))

/-- `t2 = [i ... if m['score'] > 90 and m['dist_delta'] <= 2.0]`. -/
def tier2 (cands : List Cand) : List ℕ :=
  (List.range cands.length).filter
    (fun i => 90 < candScore cands i && decide (candDelta cands i ≤ 2))

/-- `t3 = [i ... if m['score'] >= threshold]`. -/
def tier3 (cands : List Cand) (threshold : ℕ) : List ℕ :=
  (List.range cands.length).filter (fun i => threshold ≤ candScore cands i)

/-- The tiered priority selection of `match_datasets` (`best_ref`): the
first index of `t1`; else `max(t2, key=score)`; else `max(t3, key=score)`;
else `max(range(len), key=score)` — Python `max` with a key returns the
first element attaining the maximal key. -/
def bestRef (cands : List Cand) (threshold : ℕ) (dist_tolerance : ℚ) : ℕ :=
  match tier1 cands dist_tolerance with
  | i :: _ => i
  | [] =>
    if !(tier2 cands).isEmpty then pyMaxBy (candScore cands) (tier2 cands)
    else if !(tier3 cands threshold).isEmpty then
      pyMaxBy (candScore cands) (tier3 cands threshold)
    else pyMaxBy (candScore cands) (List.range cands.length)

/-- The cheapest-price decision of the merge step. -/
structure CheapestInfo where
  price : ℚ
  source : String
  url : String
deriving DecidableEq, Repr

/-- The price comparison in `match_datasets`: primary (Booking) price wins
when `0 < p_b < p_a` or `p_b > 0 and p_a == 0`; symmetrically for the
secondary (Agoda); otherwise the primary price is kept with source
`"Same or Unavailable"`. -/
def cheapestChoice (p_b p_a : ℚ) (urlB urlA : String) : CheapestInfo :=
  if (0 < p_b ∧ p_b < p_a) ∨ (0 < p_b ∧ p_a = 0) then ⟨p_b, "Booking", urlB⟩
  else if (0 < p_a ∧ p_a < p_b) ∨ (0 < p_a ∧ p_b = 0) then ⟨p_a, "Agoda", urlA⟩
  else ⟨p_b, "Same or Unavailable", urlB⟩

/-- The most-trusted-reviews decision of the merge step: ties favour the
primary source. -/
structure ReviewInfo where
  count : ℚ
  source : String
  rating : PyVal
deriving DecidableEq, Repr

/-- `Max_Reviews_Count` / `Max_Reviews_Source` / `Rating_From_Max_Source`. -/
def reviewChoice (rev_b rev_a : ℚ) (ratB ratA : PyVal) : ReviewInfo :=
  if rev_a ≤ rev_b then ⟨rev_b, "Booking", ratB⟩ else ⟨rev_a, "Agoda", ratA⟩

/-- Python banker's rounding to an integer (`round` ties go to even). -/
def roundHalfEven (q : ℚ) : ℤ :=
  if q - ⌊q⌋ < 1 / 2 then ⌊q⌋
  else if 1 / 2 < q - ⌊q⌋ then ⌊q⌋ + 1
  else if ⌊q⌋ % 2 = 0 then ⌊q⌋ else ⌊q⌋ + 1

/-- `round(q, 3)`. -/
def pyRound3 (q : ℚ) : ℚ := (roundHalfEven (q * 1000) : ℚ) / 1000

/-- One audit row produced by `match_datasets` for a primary/candidate
pair (the `merged` dict: the raw rows plus the derived columns). -/
structure MergedRecord where
  primary : Row
  secondary : Row
  cheapest : CheapestInfo
  reviews : ReviewInfo
  Match_Score : ℕ
  Dist_Delta : ℚ
  Recommended_Match : String
deriving DecidableEq, Repr

/-- Build the audit row for one candidate; `recommended` tells whether this
candidate sits at the winner index. -/
def mergeRecord (rowA : Row) (c : Cand) (recommended : Bool) : MergedRecord :=
  { primary := rowA
    secondary := c.rowB
    cheapest := cheapestChoice (extract_numeric rowA.PRICE)
      (extract_numeric c.rowB.PRICE) rowA.URL c.rowB.URL
    reviews := reviewChoice (extract_numeric rowA.REVIEW_AMOUNT)
      (extract_numeric c.rowB.REVIEW_AMOUNT) rowA.RATING c.rowB.RATING
    Match_Score := c.score
    Dist_Delta := pyRound3 c.dist_delta
    Recommended_Match := if recommended then "YES" else "NO" }

/-- The per-primary-listing body of the `match_datasets` loop: generate
candidates, skip the listing when there are none, otherwise emit one audit
row per candidate, flagging the row at the winner index `"YES"`. -/
def processPrimary (scoreFn : String → String → ℕ) (names : List String)
    (rowsB : List Row) (rowA : Row) (threshold : ℕ) (dist_tolerance : ℚ) :
    List MergedRecord :=
  let cands := validMatchesInfo scoreFn names rowsB rowA threshold dist_tolerance
  if cands.isEmpty then []
  else
    let best := bestRef cands threshold dist_tolerance
    cands.enum.map (fun ic => mergeRecord rowA ic.2 (ic.1 == best))

/-! ## Spec-side formulation of the priority resolver

`spec_resolve` renders §4.4 of the specification word for word — "pick the
first such candidate encountered" as `findIdx?`, "the candidate with the
maximum similarity score in this tier (first occurrence wins ties)" as the
first index whose score attains the tier maximum — to be compared with the
code-shaped `bestRef`. -/

/-- Index of the first candidate encountered (in generation order) that
satisfies `p`. -/
def firstIdxWhere (p : Cand → Bool) : List Cand → Option ℕ
  | [] => none
  | c :: cs => if p c then some 0 else (firstIdxWhere p cs).map (· + 1)

/-- The maximum similarity score among candidates satisfying `p` (0 when
none does; scores are non-negative). -/
def maxScoreOver (cands : List Cand) (p : Cand → Bool) : ℕ :=
  ((cands.filter p).map Cand.score).foldl max 0

/-- First index of a candidate that satisfies `p` and attains the maximal
score among candidates satisfying `p` ("first occurrence wins ties");
`none` when no candidate satisfies `p`. -/
def firstMaxIdx (cands : List Cand) (p : Cand → Bool) : Option ℕ :=
  if (cands.filter p).isEmpty then none
  else firstIdxWhere (fun c => p c && c.score == maxScoreOver cands p) cands

/-- §4.4 tiered precedence, written from the specification text: Tier 1
takes the first candidate with exact score and delta within tolerance;
Tier 2 the maximal-score candidate among score `> 90` and delta `≤ 2.0`;
Tier 3 the maximal-score candidate among score `≥ threshold`; the fallback
the maximal-score candidate overall. -/
def spec_resolve (cands : List Cand) (threshold : ℕ) (tolerance : ℚ) :
    Option ℕ :=
  match firstIdxWhere (fun c => c.score == 100 && decide (c.dist_delta ≤ tolerance)) cands with
  | some i => some i
  | none =>
    match firstMaxIdx cands (fun c => 90 < c.score && decide (c.dist_delta ≤ 2)) with
    | some i => some i
    | none =>
      match firstMaxIdx cands (fun c => threshold ≤ c.score) with
      | some i => some i
      | none => firstMaxIdx cands (fun _ => true)

/-! ## Business filter (`filter_business_logic`) -/

/-- `float(s)` for Python text input: optional surrounding whitespace, an
optional sign, then either `digits[.digits*]` or `.digits`, with an optional
exponent part; `none` models the `ValueError` raised on anything else.
(`inf`/`nan` spellings and underscore separators are not used by this
pipeline and are modelled as unparseable.) -/
def pythonFloat? (s : String) : Option ℚ :=
  let t := strip s.toList
  let (sign, t1) : ℚ × List Char :=
    match t with
    | '+' :: r => (1, r)
    | '-' :: r => (-1, r)
    | r => (1, r)
  let ip := t1.takeWhile Char.isDigit
  let r1 := t1.dropWhile Char.isDigit
  let body : Option (ℚ × List Char) :=
    match r1 with
    | '.' :: r2 =>
      let fp := r2.takeWhile Char.isDigit
      if ip.isEmpty && fp.isEmpty then none
      else some ((digitsToNat ip : ℚ) + (digitsToNat fp : ℚ) / (10 ^ fp.length : ℚ),
        r2.dropWhile Char.isDigit)
    | _ => if ip.isEmpty then none else some ((digitsToNat ip : ℚ), r1)
  match body with
  | none => none
  | some (v, rest) =>
    match rest with
    | [] => some (sign * v)
    | e :: r3 =>
      if e == 'e' || e == 'E' then
        let (esign, r4) : ℤ × List Char :=
          match r3 with
          | '+' :: r => (1, r)
          | '-' :: r => (-1, r)
          | r => (1, r)
        let ed := r4.takeWhile Char.isDigit
        if ed.isEmpty || !(r4.dropWhile Char.isDigit).isEmpty then none
        else some (sign * v * (10 : ℚ) ^ (esign * digitsToNat ed))
      else none

/-- One unified-report row as consumed by `filter_business_logic`: the four
business metrics, each either a present numeric value or missing (`NaN`).
(The remaining report columns play no role in the filter.) -/
structure URow where
  Price : Option ℚ
  Rating : Option ℚ
  Reviews_Amount : Option ℚ
  Distance : Option ℚ
deriving DecidableEq, Repr

/-- A user-supplied filter limit: omitted (`None`), a number, or text. -/
inductive Limit where
  | none : Limit
  | num : ℚ → Limit
  | str : String → Limit
deriving DecidableEq, Repr

/-- The truthiness gate `if limit and str(limit).strip():` — `None`, the
number `0`, the empty string and whitespace-only strings are all skipped
(for a non-zero number, `str(limit)` is never blank). -/
def limitActive : Limit → Bool
  | .none => false
  | .num q => q != 0
  | .str s => !s.isEmpty && !(strip s.toList).isEmpty

/-- `float(limit)` for an active limit; `none` models the `ValueError`
escaping `filter_business_logic`. -/
def limitValue : Limit → Option ℚ
  | .none => Option.none
  | .num q => some q
  | .str s => pythonFloat? s

/-- Apply one conditional filter: inactive limits leave the rows unchanged;
an active limit whose `float(...)` conversion fails aborts the whole call. -/
def applyLimit (lim : Limit) (keep : URow → ℚ → Bool) (rows : List URow) :
    Option (List URow) :=
  if limitActive lim then
    match limitValue lim with
    | some v => some (rows.filter (fun r => keep r v))
    | Option.none => Option.none
  else some rows

/-- `filter_business_logic(df, price_limit, rating_limit, review_limit,
distance_limit)`: drop rows with a missing business metric, then apply the
four conditional threshold filters in order.  The `Option` result models
normal return versus an escaping exception. -/
def filter_business_logic (df : List URow)
    (price_limit rating_limit review_limit distance_limit : Limit) :
    Option (List URow) := do
  let d := df.filter (fun r =>
    r.Price.isSome && r.Rating.isSome && r.Reviews_Amount.isSome && r.Distance.isSome)
  let d1 ← applyLimit price_limit (fun r v => decide (r.Price.getD 0 ≤ v)) d
  let d2 ← applyLimit rating_limit (fun r v => decide (v ≤ r.Rating.getD 0)) d1
  let d3 ← applyLimit review_limit (fun r v => decide (v ≤ r.Reviews_Amount.getD 0)) d2
  let d4 ← applyLimit distance_limit (fun r v => decide (r.Distance.getD 0 ≤ v)) d3
  pure d4

/-! ## Value scoring (`calculate_hotel_value_score`) -/

/-- Checked division: `none` models the `NaN` that float division `0 / 0`
produces in the scorer's min-max normalization (the numerator is also `0`
whenever the denominator is). -/
def qdiv? (a b : ℚ) : Option ℚ := if b = 0 then none else some (a / b)

/-- `dropna(subset=['Price', 'Rating'])` in the scorer: the surviving
(price, rating) pairs. -/
def priceRating? (r : URow) : Option (ℚ × ℚ) :=
  match r.Price, r.Rating with
  | some p, some rt => some (p, rt)
  | _, _ => Option.none

/-- A scored row: the surviving metrics plus the derived columns.  A `none`
derived value models a `NaN` entry. -/
structure ScoredRow where
  Price : ℚ
  Rating : ℚ
  norm_rating : Option ℚ
  norm_price : Option ℚ
  VALUE_SCORE : Option ℚ
deriving DecidableEq, Repr

/-- `calculate_hotel_value_score(df, rating_weight, price_weight)`: drop
rows missing price or rating, min-max normalize rating and price to the
scale `[0.1, 1.0]`, and combine `norm_rating * rating_weight +
(1.1 - norm_price) * price_weight`.  The division by `max - min` is
unguarded, exactly as in the source. -/
def calculate_hotel_value_score (df : List URow)
    (rating_weight price_weight : ℚ) : List ScoredRow :=
  let rows := df.filterMap priceRating?
  let ratings := rows.map Prod.snd
  let prices := rows.map Prod.fst
  match ratings, prices with
  | [], _ => []
  | _, [] => []
  | r0 :: rtl, p0 :: ptl =>
    let r_min := rtl.foldl min r0
    let r_max := rtl.foldl max r0
    let p_min := ptl.foldl min p0
    let p_max := ptl.foldl max p0
    rows.map (fun pr =>
      let nr := (qdiv? (pr.2 - r_min) (r_max - r_min)).map
        (fun d => (0.1 : ℚ) + (1.0 - 0.1) * d)
      let np := (qdiv? (pr.1 - p_min) (p_max - p_min)).map
        (fun d => (0.1 : ℚ) + (1.0 - 0.1) * d)
      { Price := pr.1
        Rating := pr.2
        norm_rating := nr
        norm_price := np
        VALUE_SCORE :=
          match nr, np with
          | some a, some b => some (a * rating_weight + (1.1 - b) * price_weight)
          | _, _ => Option.none })

end TravelDeal

namespace TravelDeal

/-! ## Helper lemmas -/

theorem mem_of_mem_strip {a : Char} {l : List Char} (h : a ∈ strip l) : a ∈ l := by
  unfold strip at h
  rw [List.mem_reverse] at h
  have h2 := (List.dropWhile_sublist (l := (l.dropWhile isSpaceChar).reverse)
    (p := isSpaceChar)).subset h
  rw [List.mem_reverse] at h2
  exact (List.dropWhile_sublist (l := l) (p := isSpaceChar)).subset h2

theorem findNumToken_eq_none {l : List Char} (h : ∀ c ∈ l, c.isDigit = false) :
    findNumToken l = none := by
  induction l with
  | nil => rfl
  | cons c cs ih =>
    simp only [findNumToken, h c (List.mem_cons_self c cs), if_false, Bool.false_eq_true]
    exact ih (fun d hd => h d (List.mem_cons_of_mem c hd))

theorem digitsToNat_cast_nonneg (ds : List Char) : (0 : ℚ) ≤ (digitsToNat ds : ℚ) := by
  exact_mod_cast Nat.zero_le _

theorem tokenToRat_nonneg (t : List Char) : 0 ≤ tokenToRat t := by
  unfold tokenToRat
  split
  · refine add_nonneg (digitsToNat_cast_nonneg _)
      (div_nonneg (digitsToNat_cast_nonneg _) ?_)
    positivity
  · exact digitsToNat_cast_nonneg _

theorem extract_numeric_str_nonneg (s : String) : 0 ≤ extract_numeric (.str s) := by
  simp only [extract_numeric]
  split
  · exact tokenToRat_nonneg _
  · exact le_refl (0 : ℚ)

theorem le_foldl_max (l : List ℕ) (a : ℕ) : a ≤ l.foldl max a := by
  induction l generalizing a with
  | nil => exact le_refl a
  | cons x l ih =>
    rw [List.foldl_cons]
    exact le_trans (le_max_left a x) (ih (max a x))

theorem pyMaxBy_foldl_mem (key : ℕ → ℕ) (is : List ℕ) (i : ℕ) :
    is.foldl (fun b j => if key b < key j then j else b) i = i ∨
      is.foldl (fun b j => if key b < key j then j else b) i ∈ is := by
  induction is generalizing i with
  | nil => exact Or.inl rfl
  | cons j is ih =>
    rw [List.foldl_cons]
    rcases ih (if key i < key j then j else i) with h | h
    · rw [h]
      by_cases hij : key i < key j
      · simp [hij]
      · simp [hij]
    · exact Or.inr (List.mem_cons_of_mem j h)

theorem pyMaxBy_mem (key : ℕ → ℕ) (t : List ℕ) (h : t ≠ []) :
    pyMaxBy key t ∈ t := by
  match t with
  | [] => exact absurd rfl h
  | i :: is =>
    rcases pyMaxBy_foldl_mem key is i with h | h
    · rw [pyMaxBy, h]; exact List.mem_cons_self i is
    · exact List.mem_cons_of_mem i h

theorem firstIdxWhere_eq_head_filter_range (p : Cand → Bool) (cands : List Cand) :
    ((List.range cands.length).filter (fun i => p (cands.getD i default))).head? =
      firstIdxWhere p cands := by
  induction cands with
  | nil => rfl
  | cons c cs ih =>
    rw [List.length_cons, List.range_succ_eq_map, List.filter_cons]
    simp only [List.getD_cons_zero]
    by_cases hp : p c
    · simp only [hp, if_pos, List.head?_cons, firstIdxWhere, if_true]
    · simp only [hp, Bool.false_eq_true, if_false, firstIdxWhere,
        List.filter_map, List.head?_map]
      have hcomp : ((fun i => p ((c :: cs).getD i default)) ∘ Nat.succ) =
          (fun i => p (cs.getD i default)) := by
        funext i
        simp [Function.comp, List.getD_cons_succ]
      rw [hcomp, ih]

theorem map_getD_filter_range (p : Cand → Bool) (cands : List Cand) :
    ((List.range cands.length).filter (fun i => p (cands.getD i default))).map
        (fun i => cands.getD i default) = cands.filter p := by
  induction cands with
  | nil => rfl
  | cons c cs ih =>
    rw [List.length_cons, List.range_succ_eq_map, List.filter_cons]
    simp only [List.getD_cons_zero]
    have hcomp : ((fun i => p ((c :: cs).getD i default)) ∘ Nat.succ) =
        (fun i => p (cs.getD i default)) := by
      funext i
      simp [Function.comp, List.getD_cons_succ]
    have hget : ((fun i => (c :: cs).getD i default) ∘ Nat.succ) =
        (fun i => cs.getD i default) := by
      funext i
      simp [Function.comp, List.getD_cons_succ]
    by_cases hp : p c
    · simp only [hp, if_pos, List.map_cons, List.getD_cons_zero, List.filter_map,
        hcomp, List.map_map, hget, ih, List.filter_cons, if_true]
    · simp only [hp, Bool.false_eq_true, if_false, List.filter_map, hcomp,
        List.map_map, hget, ih, List.filter_cons]

theorem pm_aux (key : ℕ → ℕ) (is : List ℕ) : ∀ (i : ℕ),
    ((i :: is).filter
        (fun j => key j == is.foldl (fun a j => max a (key j)) (key i))).head? =
      some (is.foldl (fun b j => if key b < key j then j else b) i) := by
  induction is with
  | nil =>
    intro i
    simp [List.filter_cons]
  | cons j is ih =>
    intro i
    by_cases hij : key i < key j
    · -- the head `i` cannot attain the maximum, so it is filtered out
      have hM : (j :: is).foldl (fun a j => max a (key j)) (key i) =
          is.foldl (fun a j => max a (key j)) (key j) := by
        rw [List.foldl_cons, max_eq_right (le_of_lt hij)]
      have hG : (j :: is).foldl (fun b j => if key b < key j then j else b) i =
          is.foldl (fun b j => if key b < key j then j else b) j := by
        rw [List.foldl_cons, if_pos hij]
      rw [hM, hG]
      have hMge : key j ≤ is.foldl (fun a j => max a (key j)) (key j) := by
        rw [← List.foldl_map key max]
        exact le_foldl_max _ _
      have hbi : (key i == is.foldl (fun a j => max a (key j)) (key j)) = false :=
        beq_eq_false_iff_ne.mpr (ne_of_lt (lt_of_lt_of_le hij hMge))
      rw [List.filter_cons, hbi]
      simp only [Bool.false_eq_true, if_false]
      exact ih j
    · -- the head `i` survives comparison with `j`
      have hM : (j :: is).foldl (fun a j => max a (key j)) (key i) =
          is.foldl (fun a j => max a (key j)) (key i) := by
        rw [List.foldl_cons, max_eq_left (le_of_not_lt hij)]
      have hG : (j :: is).foldl (fun b j => if key b < key j then j else b) i =
          is.foldl (fun b j => if key b < key j then j else b) i := by
        rw [List.foldl_cons, if_neg hij]
      rw [hM, hG]
      have hMge : key i ≤ is.foldl (fun a j => max a (key j)) (key i) := by
        rw [← List.foldl_map key max]
        exact le_foldl_max _ _
      have ihi := ih i
      by_cases hiM : key i = is.foldl (fun a j => max a (key j)) (key i)
      · have hbi : (key i == is.foldl (fun a j => max a (key j)) (key i)) = true :=
          beq_iff_eq.mpr hiM
        rw [List.filter_cons, hbi] at ihi
        rw [List.filter_cons, List.filter_cons, hbi]
        simp only [if_true, List.head?_cons] at ihi ⊢
        exact ihi
      · have hbi : (key i == is.foldl (fun a j => max a (key j)) (key i)) = false :=
          beq_eq_false_iff_ne.mpr hiM
        have hjlt : key j < is.foldl (fun a j => max a (key j)) (key i) :=
          lt_of_le_of_lt (le_of_not_lt hij) (lt_of_le_of_ne hMge hiM)
        have hbj : (key j == is.foldl (fun a j => max a (key j)) (key i)) = false :=
          beq_eq_false_iff_ne.mpr (ne_of_lt hjlt)
        rw [List.filter_cons, hbi] at ihi
        rw [List.filter_cons, List.filter_cons, hbi, hbj]
        simp only [Bool.false_eq_true, if_false] at ihi ⊢
        exact ihi

theorem head_filter_max_eq_pyMaxBy (key : ℕ → ℕ) (t : List ℕ) (h : t ≠ []) :
    (t.filter (fun j => key j == (t.map key).foldl max 0)).head? =
      some (pyMaxBy key t) := by
  match t with
  | [] => exact absurd rfl h
  | i :: is =>
    have hM : ((i :: is).map key).foldl max 0 =
        is.foldl (fun a j => max a (key j)) (key i) := by
      rw [List.map_cons, List.foldl_cons, Nat.zero_max, List.foldl_map]
    rw [hM, pyMaxBy]
    exact pm_aux key is i

theorem firstMaxIdx_eq_pyMaxBy (cands : List Cand) (p : Cand → Bool)
    (hne : ((List.range cands.length).filter (fun i => p (cands.getD i default))) ≠ []) :
    firstMaxIdx cands p =
      some (pyMaxBy (candScore cands)
        ((List.range cands.length).filter (fun i => p (cands.getD i default)))) := by
  have hmap : ((List.range cands.length).filter
      (fun i => p (cands.getD i default))).map (fun i => cands.getD i default) =
        cands.filter p := map_getD_filter_range p cands
  have hfne : ¬(cands.filter p).isEmpty = true := by
    rw [List.isEmpty_iff, ← hmap, List.map_eq_nil_iff]
    exact hne
  unfold firstMaxIdx
  rw [if_neg hfne]
  have hMax : maxScoreOver cands p =
      (((List.range cands.length).filter (fun i => p (cands.getD i default))).map
        (candScore cands)).foldl max 0 := by
    unfold maxScoreOver
    rw [← hmap, List.map_map]
    rfl
  rw [← firstIdxWhere_eq_head_filter_range]
  have hpred : (fun i => (fun c => p c && c.score == maxScoreOver cands p)
      (cands.getD i default)) =
      (fun i => (candScore cands i ==
        (((List.range cands.length).filter (fun i => p (cands.getD i default))).map
          (candScore cands)).foldl max 0) && p (cands.getD i default)) := by
    funext i
    rw [hMax, Bool.and_comm]
    rfl
  rw [hpred, ← List.filter_filter]
  exact head_filter_max_eq_pyMaxBy (candScore cands) _ hne

theorem firstMaxIdx_eq_none (cands : List Cand) (p : Cand → Bool)
    (he : ((List.range cands.length).filter (fun i => p (cands.getD i default))) = []) :
    firstMaxIdx cands p = none := by
  have hmap : ((List.range cands.length).filter
      (fun i => p (cands.getD i default))).map (fun i => cands.getD i default) =
        cands.filter p := map_getD_filter_range p cands
  rw [he, List.map_nil] at hmap
  unfold firstMaxIdx
  rw [if_pos]
  rw [List.isEmpty_iff, ← hmap]

theorem bestRef_lt (cands : List Cand) (threshold : ℕ) (tol : ℚ)
    (hne : cands ≠ []) : bestRef cands threshold tol < cands.length := by
  have hrange : ∀ i, i ∈ List.range cands.length → i < cands.length :=
    fun i h => List.mem_range.mp h
  have hlen : cands.length ≠ 0 := fun h => hne (List.length_eq_zero.mp h)
  unfold bestRef
  cases htier1 : tier1 cands tol with
  | cons i tl =>
    have hmem : i ∈ tier1 cands tol := by rw [htier1]; exact List.mem_cons_self i tl
    exact hrange i (List.mem_filter.mp hmem).1
  | nil =>
    by_cases h2 : (tier2 cands).isEmpty
    · rw [if_neg (by simp [h2])]
      by_cases h3 : (tier3 cands threshold).isEmpty
      · rw [if_neg (by simp [h3])]
        refine hrange _ (pyMaxBy_mem _ _ ?_)
        rw [ne_eq, List.range_eq_nil]
        exact hlen
      · rw [if_pos (by simp only [Bool.not_eq_true] at h3; simp [h3])]
        refine hrange _ ((List.mem_filter.mp (pyMaxBy_mem _ _ ?_)).1)
        rw [ne_eq, ← List.isEmpty_iff]
        exact h3
    · rw [if_pos (by simp only [Bool.not_eq_true] at h2; simp [h2])]
      refine hrange _ ((List.mem_filter.mp (pyMaxBy_mem _ _ ?_)).1)
      rw [ne_eq, ← List.isEmpty_iff]
      exact h2

theorem mem_validMatchesInfo_props {scoreFn : String → String → ℕ}
    {names : List String} {rowsB : List Row} {rowA : Row} {threshold : ℕ}
    {tol : ℚ} {c : Cand}
    (h : c ∈ validMatchesInfo scoreFn names rowsB rowA threshold tol) :
    c.rowB ∈ rowsB ∧
    c.score = scoreFn (normalize_HOTEL_NAME rowA.HOTEL_NAME)
      (normalize_HOTEL_NAME c.rowB.HOTEL_NAME) ∧
    threshold ≤ c.score ∧
    c.dist_delta = |rowA.DISTANCE - c.rowB.DISTANCE| ∧
    c.dist_delta ≤ tol := by
  unfold validMatchesInfo at h
  rw [List.mem_flatMap] at h
  obtain ⟨m, hm, hc⟩ := h
  by_cases hth : threshold ≤ scoreFn (normalize_HOTEL_NAME rowA.HOTEL_NAME) m
  · rw [if_pos hth, List.mem_filterMap] at hc
    obtain ⟨rb, hrb, heq⟩ := hc
    rw [List.mem_filter] at hrb
    obtain ⟨hrbmem, hrbname⟩ := hrb
    have hname : normalize_HOTEL_NAME rb.HOTEL_NAME = m := by
      rwa [beq_iff_eq] at hrbname
    by_cases hdel : |rowA.DISTANCE - rb.DISTANCE| ≤ tol
    · rw [if_pos hdel, Option.some.injEq] at heq
      subst heq
      subst hname
      exact ⟨hrbmem, rfl, hth, rfl, hdel⟩
    · rw [if_neg hdel] at heq
      exact absurd heq (Option.noConfusion)
  · rw [if_neg hth] at hc
    exact absurd hc (List.not_mem_nil c)

theorem validMatchesInfo_mem_of (scoreFn : String → String → ℕ)
    (names : List String) (rowsB : List Row) (rowA : Row) (threshold : ℕ)
    (tol : ℚ) (rb : Row) (hrb : rb ∈ rowsB)
    (hnm : normalize_HOTEL_NAME rb.HOTEL_NAME ∈ names)
    (hth : threshold ≤ scoreFn (normalize_HOTEL_NAME rowA.HOTEL_NAME)
      (normalize_HOTEL_NAME rb.HOTEL_NAME))
    (hdel : |rowA.DISTANCE - rb.DISTANCE| ≤ tol) :
    (⟨rb, scoreFn (normalize_HOTEL_NAME rowA.HOTEL_NAME)
        (normalize_HOTEL_NAME rb.HOTEL_NAME),
      |rowA.DISTANCE - rb.DISTANCE|⟩ : Cand) ∈
      validMatchesInfo scoreFn names rowsB rowA threshold tol := by
  unfold validMatchesInfo
  rw [List.mem_flatMap]
  refine ⟨normalize_HOTEL_NAME rb.HOTEL_NAME, hnm, ?_⟩
  rw [if_pos hth, List.mem_filterMap]
  refine ⟨rb, List.mem_filter.mpr ⟨hrb, beq_iff_eq.mpr rfl⟩, ?_⟩
  rw [if_pos hdel]

theorem roundHalfEven_le_int (x : ℚ) (T : ℤ) (h : x ≤ (T : ℚ)) :
    roundHalfEven x ≤ T := by
  have hfl : ⌊x⌋ ≤ T := by
    rw [← Int.floor_intCast (α := ℚ) T]
    exact Int.floor_le_floor h
  have hfx : (⌊x⌋ : ℚ) ≤ x := Int.floor_le x
  unfold roundHalfEven
  split_ifs with h1 h2 h3
  · exact hfl
  · have hlt : (⌊x⌋ : ℚ) < (T : ℚ) := by linarith
    have : ⌊x⌋ < T := by exact_mod_cast hlt
    omega
  · exact hfl
  · have hr : x - ⌊x⌋ = 1 / 2 := le_antisymm (not_lt.mp h2) (not_lt.mp h1)
    have hlt : (⌊x⌋ : ℚ) < (T : ℚ) := by linarith
    have : ⌊x⌋ < T := by exact_mod_cast hlt
    omega

theorem pyRound3_le (q t : ℚ) (hq : q ≤ t) (hden : (t * 1000).den = 1) :
    pyRound3 q ≤ t := by
  have hT : (((t * 1000).num : ℤ) : ℚ) = t * 1000 := (Rat.den_eq_one_iff _).mp hden
  have h1 : q * 1000 ≤ (((t * 1000).num : ℤ) : ℚ) := by
    rw [hT]
    nlinarith
  have h2 : roundHalfEven (q * 1000) ≤ (t * 1000).num :=
    roundHalfEven_le_int _ _ h1
  unfold pyRound3
  rw [div_le_iff₀ (by norm_num : (0 : ℚ) < 1000)]
  calc ((roundHalfEven (q * 1000) : ℤ) : ℚ) ≤ (((t * 1000).num : ℤ) : ℚ) := by
        exact_mod_cast h2
    _ = t * 1000 := hT

/-- Concrete evaluation of the per-primary pipeline on a one-row secondary
table whose distance delta (`1/2000` km) has more than three decimal
places. -/
theorem processPrimary_sample :
    processPrimary (fun _ _ => 100) [normalize_HOTEL_NAME "Alpha Hotel"]
        [⟨"Alpha Hotel", .na, .na, .na, 1 / 2000, "ua"⟩]
        ⟨"Hotel Alpha", .na, .na, .na, 0, "ub"⟩ 85 3 =
      [mergeRecord ⟨"Hotel Alpha", .na, .na, .na, 0, "ub"⟩
        ⟨⟨"Alpha Hotel", .na, .na, .na, 1 / 2000, "ua"⟩, 100,
          |(0 : ℚ) - 1 / 2000|⟩ true] := by
  have hle : |(0 : ℚ) - 1 / 2000| ≤ 3 := by
    rw [zero_sub, abs_neg, abs_of_nonneg (by norm_num)]
    norm_num
  have hcands : validMatchesInfo (fun _ _ => 100)
      [normalize_HOTEL_NAME "Alpha Hotel"]
      [⟨"Alpha Hotel", .na, .na, .na, 1 / 2000, "ua"⟩]
      ⟨"Hotel Alpha", .na, .na, .na, 0, "ub"⟩ 85 3 =
      [⟨⟨"Alpha Hotel", .na, .na, .na, 1 / 2000, "ua"⟩, 100,
        |(0 : ℚ) - 1 / 2000|⟩] := by
    simp only [validMatchesInfo, List.flatMap_cons, List.flatMap_nil,
      List.append_nil]
    rw [if_pos (by norm_num)]
    simp only [List.filter_cons, List.filter_nil, beq_self_eq_true, if_true]
    simp only [List.filterMap_cons, List.filterMap_nil]
    rw [if_pos hle]
  have ht1 : tier1 [(⟨⟨"Alpha Hotel", .na, .na, .na, 1 / 2000, "ua"⟩, 100,
      |(0 : ℚ) - 1 / 2000|⟩ : Cand)] 3 = [0] := by
    unfold tier1
    rw [show List.range (List.length
        [(⟨⟨"Alpha Hotel", .na, .na, .na, 1 / 2000, "ua"⟩, 100,
          |(0 : ℚ) - 1 / 2000|⟩ : Cand)]) = [0] from rfl]
    rw [List.filter_cons, List.filter_nil]
    simp only [candScore, candDelta, List.getD_cons_zero, decide_eq_true hle]
    norm_num
  have hbest : bestRef [(⟨⟨"Alpha Hotel", .na, .na, .na, 1 / 2000, "ua"⟩, 100,
      |(0 : ℚ) - 1 / 2000|⟩ : Cand)] 85 3 = 0 := by
    unfold bestRef
    rw [ht1]
  simp only [processPrimary, hcands, hbest]
  rfl

/-! ## Character-level lemmas for the normalization development -/

theorem char_eq_iff_toNat {c d : Char} : c = d ↔ c.toNat = d.toNat :=
  ⟨fun h => h ▸ rfl, fun h => Char.ext (UInt32.toNat.inj h)⟩

theorem char_toNat_ofNat_valid {n : ℕ} (h : n.isValidChar) :
    (Char.ofNat n).toNat = n := by
  unfold Char.ofNat
  rw [dif_pos h]
  rfl

theorem toNat_toLower (c : Char) : (Char.toLower c).toNat =
    if 65 ≤ c.toNat ∧ c.toNat ≤ 90 then c.toNat + 32 else c.toNat := by
  show (if c.toNat ≥ 65 ∧ c.toNat ≤ 90 then Char.ofNat (c.toNat + 32) else c).toNat = _
  split_ifs with h
  · exact char_toNat_ofNat_valid (Or.inl (by omega))
  · rfl

theorem toLower_toLower (c : Char) :
    Char.toLower (Char.toLower c) = Char.toLower c := by
  rw [char_eq_iff_toNat, toNat_toLower (Char.toLower c), toNat_toLower c]
  split_ifs <;> omega

theorem isSpaceChar_iff (c : Char) : isSpaceChar c = true ↔
    (c.toNat = 32 ∨ c.toNat = 9 ∨ c.toNat = 13 ∨ c.toNat = 10) := by
  unfold isSpaceChar Char.isWhitespace
  simp only [Bool.or_eq_true, decide_eq_true_eq]
  rw [char_eq_iff_toNat, char_eq_iff_toNat, char_eq_iff_toNat, char_eq_iff_toNat]
  simp only [show (' ').toNat = 32 from rfl, show ('\t').toNat = 9 from rfl,
    show ('\r').toNat = 13 from rfl, show ('\n').toNat = 10 from rfl]
  tauto

theorem uint32_le_val_iff {c : Char} {m : UInt32} :
    m ≤ c.val ↔ m.toNat ≤ c.toNat := by
  rw [UInt32.le_def, BitVec.le_def]
  exact Iff.rfl

theorem val_le_uint32_iff {c : Char} {m : UInt32} :
    c.val ≤ m ↔ c.toNat ≤ m.toNat := by
  rw [UInt32.le_def, BitVec.le_def]
  exact Iff.rfl

theorem isAlphanum_iff (c : Char) : c.isAlphanum = true ↔
    ((48 ≤ c.toNat ∧ c.toNat ≤ 57) ∨ (65 ≤ c.toNat ∧ c.toNat ≤ 90) ∨
      (97 ≤ c.toNat ∧ c.toNat ≤ 122)) := by
  unfold Char.isAlphanum Char.isAlpha Char.isUpper Char.isLower Char.isDigit
  simp only [Bool.or_eq_true, Bool.and_eq_true, decide_eq_true_eq,
    ge_iff_le, uint32_le_val_iff, val_le_uint32_iff,
    show ((48 : UInt32)).toNat = 48 from by decide,
    show ((57 : UInt32)).toNat = 57 from by decide,
    show ((65 : UInt32)).toNat = 65 from by decide,
    show ((90 : UInt32)).toNat = 90 from by decide,
    show ((97 : UInt32)).toNat = 97 from by decide,
    show ((122 : UInt32)).toNat = 122 from by decide]
  omega

theorem isSpaceChar_toLower (c : Char) :
    isSpaceChar (Char.toLower c) = isSpaceChar c := by
  by_cases h1 : isSpaceChar (Char.toLower c) = true
  · have := (isSpaceChar_iff _).mp h1
    rw [toNat_toLower] at this
    rw [h1, eq_comm, (isSpaceChar_iff c)]
    split_ifs at this <;> omega
  · rw [Bool.not_eq_true] at h1
    rw [h1, eq_comm, Bool.eq_false_iff, ne_eq, isSpaceChar_iff]
    intro hc
    have := (isSpaceChar_iff (Char.toLower c)).not.mp (by rw [h1]; simp)
    rw [toNat_toLower] at this
    split_ifs at this <;> omega

theorem alnum_isWordChar {c : Char} (h : c.isAlphanum = true) :
    isWordChar c = true := by
  unfold isWordChar
  rw [h, Bool.true_or]

theorem alnum_isKeptChar {c : Char} (h : c.isAlphanum = true) :
    isKeptChar c = true := by
  unfold isKeptChar
  rw [h, Bool.true_or]

theorem alnum_not_space {c : Char} (h : c.isAlphanum = true) :
    isSpaceChar c = false := by
  cases hs : isSpaceChar c with
  | false => rfl
  | true =>
    have h1 := (isSpaceChar_iff c).mp hs
    have h2 := (isAlphanum_iff c).mp h
    omega

theorem kept_not_space_alnum {c : Char} (hk : isKeptChar c = true)
    (hs : isSpaceChar c = false) : c.isAlphanum = true := by
  unfold isKeptChar at hk
  cases ha : c.isAlphanum with
  | true => rfl
  | false =>
    rw [ha, Bool.false_or] at hk
    rw [hk] at hs
    exact absurd hs (by simp)

/-! ## Lemmas about `strip` -/

theorem dropWhile_head_not {p : Char → Bool} {l : List Char} {c : Char}
    (h : (l.dropWhile p).head? = some c) : p c = false := by
  induction l with
  | nil => exact absurd h (by simp)
  | cons a t ih =>
    rw [List.dropWhile_cons] at h
    split_ifs at h with hp
    · exact ih h
    · rw [List.head?_cons, Option.some.injEq] at h
      subst h
      exact Bool.not_eq_true _ ▸ hp

theorem getLast?_dropWhile (p : Char → Bool) (l : List Char)
    (h : l.dropWhile p ≠ []) : (l.dropWhile p).getLast? = l.getLast? := by
  obtain ⟨t, ht⟩ := List.dropWhile_suffix (l := l) p
  conv_rhs => rw [← ht]
  rw [List.getLast?_append]
  cases hd : (l.dropWhile p).getLast? with
  | none => exact absurd (List.getLast?_eq_none_iff.mp hd) h
  | some c => rfl

theorem strip_head_not {s : List Char} {c : Char}
    (h : (strip s).head? = some c) : isSpaceChar c = false := by
  unfold strip at h
  rw [List.head?_reverse] at h
  by_cases he : ((s.dropWhile isSpaceChar).reverse.dropWhile isSpaceChar) = []
  · rw [he] at h
    exact absurd h (by simp)
  · rw [getLast?_dropWhile _ _ he, List.getLast?_reverse] at h
    exact dropWhile_head_not h

theorem strip_last_not {s : List Char} {c : Char}
    (h : (strip s).getLast? = some c) : isSpaceChar c = false := by
  unfold strip at h
  rw [List.getLast?_reverse] at h
  exact dropWhile_head_not h

theorem strip_eq_self {s : List Char}
    (h1 : ∀ c, s.head? = some c → isSpaceChar c = false)
    (h2 : ∀ c, s.getLast? = some c → isSpaceChar c = false) :
    strip s = s := by
  unfold strip
  cases s with
  | nil => rfl
  | cons a t =>
    have ha : isSpaceChar a = false := h1 a rfl
    rw [List.dropWhile_cons, if_neg (by rw [ha]; exact Bool.false_ne_true)]
    rcases hr : (a :: t).reverse with _ | ⟨d, r⟩
    · exact absurd (List.reverse_eq_nil_iff.mp hr) (List.cons_ne_nil a t)
    · have hd : (a :: t).getLast? = some d := by
        rw [← List.head?_reverse, hr, List.head?_cons]
      have hdns := h2 d hd
      rw [List.dropWhile_cons, if_neg (by rw [hdns]; exact Bool.false_ne_true),
        ← hr, List.reverse_reverse]

theorem strip_strip (s : List Char) : strip (strip s) = strip s :=
  strip_eq_self (fun _ h => strip_head_not h) (fun _ h => strip_last_not h)

theorem strip_map_toLower (s : List Char) :
    strip (s.map Char.toLower) = (strip s).map Char.toLower := by
  have hcomp : (isSpaceChar ∘ Char.toLower) = isSpaceChar :=
    funext isSpaceChar_toLower
  unfold strip
  rw [List.dropWhile_map, hcomp, ← List.map_reverse, List.dropWhile_map, hcomp,
    ← List.map_reverse]

theorem map_toLower_strip_map_toLower (s : List Char) :
    (strip (s.map Char.toLower)).map Char.toLower = strip (s.map Char.toLower) := by
  rw [strip_map_toLower, List.map_map,
    show (Char.toLower ∘ Char.toLower) = Char.toLower from funext toLower_toLower]

theorem mem_strip_map_toLower_fixed {s : List Char} {c : Char}
    (h : c ∈ strip (s.map Char.toLower)) : Char.toLower c = c := by
  have h2 := mem_of_mem_strip h
  rw [List.mem_map] at h2
  obtain ⟨d, _, hd⟩ := h2
  rw [← hd]
  exact toLower_toLower d

/-! ## Lemmas about `joinWords` and `wordsOf` -/

theorem flushRun_nil : flushRun [] = [] := by decide

theorem mem_flushRun {cur : List Char} {c : Char} (h : c ∈ flushRun cur) :
    c ∈ cur := by
  unfold flushRun at h
  split_ifs at h
  · exact absurd h (List.not_mem_nil c)
  · exact List.mem_reverse.mp h

theorem joinWords_ne_nil {ws : List (List Char)} (hne : ws ≠ [])
    (hw : ∀ w ∈ ws, w ≠ []) : joinWords ws ≠ [] := by
  match ws with
  | [] => exact absurd rfl hne
  | [w] => exact hw w (List.mem_singleton.mpr rfl)
  | w :: g :: gs =>
    show w ++ ' ' :: joinWords (g :: gs) ≠ []
    cases hww : w with
    | nil => exact absurd hww (hw w (List.mem_cons_self _ _))
    | cons a t => simp

theorem mem_joinWords {ws : List (List Char)} {c : Char}
    (h : c ∈ joinWords ws) : (∃ w ∈ ws, c ∈ w) ∨ c = ' ' := by
  induction ws with
  | nil => exact absurd h (List.not_mem_nil c)
  | cons w gs ih =>
    cases gs with
    | nil => exact Or.inl ⟨w, List.mem_singleton.mpr rfl, h⟩
    | cons g gs2 =>
      rw [show joinWords (w :: g :: gs2) = w ++ ' ' :: joinWords (g :: gs2)
        from rfl] at h
      rcases List.mem_append.mp h with h | h
      · exact Or.inl ⟨w, List.mem_cons_self _ _, h⟩
      · rcases List.mem_cons.mp h with h | h
        · exact Or.inr h
        · rcases ih h with ⟨w2, hw2, hc2⟩ | h
          · exact Or.inl ⟨w2, List.mem_cons_of_mem _ hw2, hc2⟩
          · exact Or.inr h

theorem head?_joinWords {ws : List (List Char)} (hne : ws ≠ [])
    (hw : ∀ w ∈ ws, w ≠ []) :
    ∃ c, (joinWords ws).head? = some c ∧ ∃ w ∈ ws, c ∈ w := by
  match ws with
  | [] => exact absurd rfl hne
  | [w] =>
    obtain ⟨a, t, rfl⟩ :=
      List.exists_cons_of_ne_nil (hw w (List.mem_singleton.mpr rfl))
    exact ⟨a, rfl, a :: t, List.mem_singleton.mpr rfl, List.mem_cons_self a t⟩
  | w :: g :: gs =>
    obtain ⟨a, t, rfl⟩ :=
      List.exists_cons_of_ne_nil (hw w (List.mem_cons_self _ _))
    exact ⟨a, rfl, a :: t, List.mem_cons_self _ _, List.mem_cons_self a t⟩

theorem getLast?_joinWords {ws : List (List Char)} (hne : ws ≠ [])
    (hw : ∀ w ∈ ws, w ≠ []) :
    ∃ c, (joinWords ws).getLast? = some c ∧ ∃ w ∈ ws, c ∈ w := by
  induction ws with
  | nil => exact absurd rfl hne
  | cons w gs ih =>
    cases gs with
    | nil =>
      have hwne : w ≠ [] := hw w (List.mem_singleton.mpr rfl)
      exact ⟨w.getLast hwne,
        by rw [show joinWords [w] = w from rfl]; exact List.getLast?_eq_getLast w hwne,
        w, List.mem_singleton.mpr rfl, List.getLast_mem hwne⟩
    | cons g gs2 =>
      have htl : ∀ u ∈ g :: gs2, u ≠ [] :=
        fun u hu => hw u (List.mem_cons_of_mem _ hu)
      obtain ⟨c, hc, w2, hw2, hcw2⟩ := ih (List.cons_ne_nil g gs2) htl
      refine ⟨c, ?_, w2, List.mem_cons_of_mem _ hw2, hcw2⟩
      rw [show joinWords (w :: g :: gs2) = w ++ ' ' :: joinWords (g :: gs2) from rfl,
        List.getLast?_append]
      have hjne : joinWords (g :: gs2) ≠ [] :=
        joinWords_ne_nil (List.cons_ne_nil g gs2) htl
      obtain ⟨d, t, hdt⟩ := List.exists_cons_of_ne_nil hjne
      rw [hdt, List.getLast?_cons_cons, ← hdt, hc]
      rfl

theorem wordsAux_word_append (w : List Char) : ∀ (cur rest : List Char),
    (∀ c ∈ w, isSpaceChar c = false) →
    wordsAux cur (w ++ rest) = wordsAux (w.reverse ++ cur) rest := by
  induction w with
  | nil => intro cur rest _; rfl
  | cons a t ih =>
    intro cur rest h
    rw [List.cons_append]
    show (if isSpaceChar a then _ else wordsAux (a :: cur) (t ++ rest)) = _
    rw [if_neg (by rw [h a (List.mem_cons_self a t)]; exact Bool.false_ne_true)]
    rw [ih (a :: cur) rest (fun c hc => h c (List.mem_cons_of_mem a hc))]
    rw [List.reverse_cons, List.append_assoc]
    rfl

theorem wordsAux_space (cur t : List Char) : wordsAux cur (' ' :: t) =
    if cur.isEmpty then wordsAux [] t else cur.reverse :: wordsAux [] t := by
  show (if isSpaceChar ' ' then _ else _) = _
  rw [if_pos (by decide)]

theorem isEmpty_false_of_ne_nil {α : Type} {l : List α} (h : l ≠ []) :
    l.isEmpty = false := by
  cases l with
  | nil => exact absurd rfl h
  | cons a t => rfl

theorem wordsOf_join (gs : List (List Char))
    (h : ∀ g ∈ gs, ∀ c ∈ g, isSpaceChar c = false) :
    wordsOf (joinWords gs) = gs.filter (fun g => !g.isEmpty) := by
  induction gs with
  | nil => rfl
  | cons g gs2 ih =>
    have hg : ∀ c ∈ g, isSpaceChar c = false := h g (List.mem_cons_self _ _)
    have htl : ∀ u ∈ gs2, ∀ c ∈ u, isSpaceChar c = false :=
      fun u hu => h u (List.mem_cons_of_mem _ hu)
    cases gs2 with
    | nil =>
      show wordsAux [] (joinWords [g]) = _
      rw [show joinWords [g] = g from rfl]
      conv_lhs => rw [← List.append_nil g]
      rw [wordsAux_word_append g [] [] hg, List.append_nil]
      show (if g.reverse.isEmpty then ([] : List (List Char))
        else [g.reverse.reverse]) = _
      rw [List.filter_cons, List.filter_nil]
      cases g with
      | nil => rfl
      | cons a t =>
        rw [if_neg (by simp [isEmpty_false_of_ne_nil
            (show (a :: t).reverse ≠ [] by simp)]),
          List.reverse_reverse,
          if_pos (show (!(a :: t).isEmpty) = true from rfl)]
    | cons g2 gs3 =>
      show wordsAux [] (joinWords (g :: g2 :: gs3)) = _
      rw [show joinWords (g :: g2 :: gs3) = g ++ ' ' :: joinWords (g2 :: gs3)
        from rfl]
      rw [wordsAux_word_append g [] (' ' :: joinWords (g2 :: gs3)) hg,
        List.append_nil, wordsAux_space, List.filter_cons]
      cases g with
      | nil =>
        rw [if_pos (show ([] : List Char).reverse.isEmpty = true from rfl),
          if_neg (by decide)]
        exact ih htl
      | cons a t =>
        rw [if_neg (by simp [isEmpty_false_of_ne_nil
            (show (a :: t).reverse ≠ [] by simp)]),
          List.reverse_reverse,
          if_pos (show (!(a :: t).isEmpty) = true from rfl)]
        rw [show wordsAux [] (joinWords (g2 :: gs3)) =
          wordsOf (joinWords (g2 :: gs3)) from rfl, ih htl]

theorem wordsAux_mem_props {s : List Char} : ∀ {u w : List Char},
    (∀ c ∈ u, isSpaceChar c = false) → w ∈ wordsAux u s →
    w ≠ [] ∧ ∀ c ∈ w, isSpaceChar c = false ∧ (c ∈ u ∨ c ∈ s) := by
  induction s with
  | nil =>
    intro cur w hcur hw
    simp only [wordsAux] at hw
    split_ifs at hw with hc
    · exact absurd hw (List.not_mem_nil w)
    · rw [List.mem_singleton] at hw
      subst hw
      refine ⟨?_, ?_⟩
      · rw [ne_eq, List.reverse_eq_nil_iff]
        intro h
        rw [Bool.not_eq_true] at hc
        rw [h] at hc
        exact absurd hc (by simp)
      · intro c hcrev
        rw [List.mem_reverse] at hcrev
        exact ⟨hcur c hcrev, Or.inl hcrev⟩
  | cons a t ih =>
    intro cur w hcur hw
    simp only [wordsAux] at hw
    split_ifs at hw with hsp hce
    · have hr := ih (u := []) (w := w)
        (fun c hc => absurd hc (List.not_mem_nil c)) hw
      refine ⟨hr.1, fun c hc => ⟨(hr.2 c hc).1, ?_⟩⟩
      rcases (hr.2 c hc).2 with h | h
      · exact absurd h (List.not_mem_nil c)
      · exact Or.inr (List.mem_cons_of_mem a h)
    · rcases List.mem_cons.mp hw with h | h
      · subst h
        refine ⟨?_, ?_⟩
        · rw [ne_eq, List.reverse_eq_nil_iff]
          intro h
          rw [Bool.not_eq_true] at hce
          rw [h] at hce
          exact absurd hce (by simp)
        · intro c hcrev
          rw [List.mem_reverse] at hcrev
          exact ⟨hcur c hcrev, Or.inl hcrev⟩
      · have hr := ih (u := []) (w := w)
          (fun c hc => absurd hc (List.not_mem_nil c)) h
        refine ⟨hr.1, fun c hc => ⟨(hr.2 c hc).1, ?_⟩⟩
        rcases (hr.2 c hc).2 with h2 | h2
        · exact absurd h2 (List.not_mem_nil c)
        · exact Or.inr (List.mem_cons_of_mem a h2)
    · have hcur2 : ∀ c ∈ a :: cur, isSpaceChar c = false := by
        intro c hc
        rcases List.mem_cons.mp hc with h | h
        · subst h
          rw [Bool.not_eq_true] at hsp
          exact hsp
        · exact hcur c h
      have hr := ih (u := a :: cur) (w := w) hcur2 hw
      refine ⟨hr.1, fun c hc => ⟨(hr.2 c hc).1, ?_⟩⟩
      rcases (hr.2 c hc).2 with h2 | h2
      · rcases List.mem_cons.mp h2 with h3 | h3
        · subst h3
          exact Or.inr (List.mem_cons_self c t)
        · exact Or.inl h3
      · exact Or.inr (List.mem_cons_of_mem a h2)

/-! ## Lemmas about stop-word removal -/

theorem removeNoiseAux_word_append (w : List Char) : ∀ (cur rest : List Char),
    (∀ c ∈ w, isWordChar c = true) →
    removeNoiseAux cur (w ++ rest) = removeNoiseAux (w.reverse ++ cur) rest := by
  induction w with
  | nil => intro cur rest _; rfl
  | cons a t ih =>
    intro cur rest h
    rw [List.cons_append]
    show (if isWordChar a then removeNoiseAux (a :: cur) (t ++ rest) else _) = _
    rw [if_pos (h a (List.mem_cons_self a t))]
    rw [ih (a :: cur) rest (fun c hc => h c (List.mem_cons_of_mem a hc))]
    rw [List.reverse_cons, List.append_assoc]
    rfl

theorem removeNoiseAux_space (cur t : List Char) :
    removeNoiseAux cur (' ' :: t) =
      flushRun cur ++ ' ' :: removeNoiseAux [] t := by
  show (if isWordChar ' ' then _
    else flushRun cur ++ ' ' :: removeNoiseAux [] t) = _
  rw [if_neg (by decide)]

theorem flushRun_reverse (w : List Char) :
    flushRun w.reverse = if w ∈ noiseWords then [] else w := by
  unfold flushRun
  rw [List.reverse_reverse]

theorem removeNoise_join (ws : List (List Char))
    (h : ∀ w ∈ ws, w ≠ [] ∧ ∀ c ∈ w, isWordChar c = true) :
    removeNoiseRuns (joinWords ws) =
      joinWords (ws.map (fun w => if w ∈ noiseWords then [] else w)) := by
  induction ws with
  | nil =>
    show flushRun [] = []
    exact flushRun_nil
  | cons w ws2 ih =>
    have hw : ∀ c ∈ w, isWordChar c = true := (h w (List.mem_cons_self _ _)).2
    have htl : ∀ u ∈ ws2, u ≠ [] ∧ ∀ c ∈ u, isWordChar c = true :=
      fun u hu => h u (List.mem_cons_of_mem _ hu)
    cases ws2 with
    | nil =>
      show removeNoiseAux [] (joinWords [w]) = _
      rw [show joinWords [w] = w from rfl]
      conv_lhs => rw [← List.append_nil w]
      rw [removeNoiseAux_word_append w [] [] hw, List.append_nil]
      show flushRun w.reverse = _
      rw [flushRun_reverse]
      rfl
    | cons g gs =>
      show removeNoiseAux [] (joinWords (w :: g :: gs)) = _
      rw [show joinWords (w :: g :: gs) = w ++ ' ' :: joinWords (g :: gs)
        from rfl]
      rw [removeNoiseAux_word_append w [] (' ' :: joinWords (g :: gs)) hw,
        List.append_nil, removeNoiseAux_space, flushRun_reverse]
      rw [show removeNoiseAux [] (joinWords (g :: gs)) =
        removeNoiseRuns (joinWords (g :: gs)) from rfl, ih htl]
      rfl

theorem mem_removeNoiseAux {s : List Char} : ∀ {cur : List Char} {c : Char},
    c ∈ removeNoiseAux cur s → c ∈ cur ∨ c ∈ s := by
  induction s with
  | nil =>
    intro cur c h
    exact Or.inl (mem_flushRun h)
  | cons a t ih =>
    intro cur c h
    simp only [removeNoiseAux] at h
    split_ifs at h with hword
    · rcases ih h with h2 | h2
      · rcases List.mem_cons.mp h2 with h3 | h3
        · subst h3
          exact Or.inr (List.mem_cons_self c t)
        · exact Or.inl h3
      · exact Or.inr (List.mem_cons_of_mem a h2)
    · rcases List.mem_append.mp h with h2 | h2
      · exact Or.inl (mem_flushRun h2)
      · rcases List.mem_cons.mp h2 with h3 | h3
        · subst h3
          exact Or.inr (List.mem_cons_self c t)
        · rcases ih h3 with h4 | h4
          · exact absurd h4 (List.not_mem_nil c)
          · exact Or.inr (List.mem_cons_of_mem a h4)

theorem mem_removeNoiseRuns {s : List Char} {c : Char}
    (h : c ∈ removeNoiseRuns s) : c ∈ s := by
  rcases mem_removeNoiseAux h with h2 | h2
  · exact absurd h2 (List.not_mem_nil c)
  · exact h2

theorem map_if_filter (ws : List (List Char)) (h : ∀ w ∈ ws, w ≠ []) :
    (ws.map (fun w => if w ∈ noiseWords then [] else w)).filter
        (fun g => !g.isEmpty) =
      ws.filter (fun w => !decide (w ∈ noiseWords)) := by
  induction ws with
  | nil => rfl
  | cons w ws2 ih =>
    have htl : ∀ u ∈ ws2, u ≠ [] := fun u hu => h u (List.mem_cons_of_mem _ hu)
    rw [List.map_cons, List.filter_cons, List.filter_cons]
    by_cases hn : w ∈ noiseWords
    · rw [if_pos hn, if_neg (by decide), if_neg (by simp [hn])]
      exact ih htl
    · rw [if_neg hn,
        if_pos (show (!w.isEmpty) = true by
          rw [isEmpty_false_of_ne_nil (h w (List.mem_cons_self _ _))]; rfl),
        if_pos (by simp [hn]), ih htl]

theorem pipelineFin_join (ws : List (List Char))
    (h : ∀ w ∈ ws, w ≠ [] ∧ ∀ c ∈ w, Char.isAlphanum c = true) :
    pipelineFin (joinWords ws) =
      joinWords (ws.filter (fun w => !decide (w ∈ noiseWords))) := by
  unfold pipelineFin collapse
  rw [removeNoise_join ws (fun w hw =>
    ⟨(h w hw).1, fun c hc => alnum_isWordChar ((h w hw).2 c hc)⟩)]
  have hkept : ∀ c ∈ joinWords
      (ws.map (fun w => if w ∈ noiseWords then [] else w)),
      isKeptChar c = true := by
    intro c hc
    rcases mem_joinWords hc with ⟨g, hg, hcg⟩ | hsp
    · rw [List.mem_map] at hg
      obtain ⟨w, hw, hwg⟩ := hg
      subst hwg
      by_cases hn : w ∈ noiseWords
      · rw [if_pos hn] at hcg
        exact absurd hcg (List.not_mem_nil c)
      · rw [if_neg hn] at hcg
        exact alnum_isKeptChar ((h w hw).2 c hcg)
    · subst hsp
      decide
  rw [show stripSpecial (joinWords
      (ws.map (fun w => if w ∈ noiseWords then [] else w))) =
    joinWords (ws.map (fun w => if w ∈ noiseWords then [] else w)) from
    List.filter_eq_self.mpr hkept]
  rw [wordsOf_join _ (by
    intro g hg c hc
    rw [List.mem_map] at hg
    obtain ⟨w, hw, hwg⟩ := hg
    subst hwg
    by_cases hn : w ∈ noiseWords
    · rw [if_pos hn] at hc
      exact absurd hc (List.not_mem_nil c)
    · rw [if_neg hn] at hc
      exact alnum_not_space ((h w hw).2 c hc))]
  rw [map_if_filter ws (fun w hw => (h w hw).1)]

theorem normalize_joinWords_eval (ws : List (List Char)) (hne : ws ≠ [])
    (hw : ∀ w ∈ ws, w ≠ [] ∧
      ∀ c ∈ w, Char.isAlphanum c = true ∧ Char.toLower c = c) :
    normalize_HOTEL_NAME ⟨joinWords ws⟩ =
      if (joinWords (ws.filter (fun w => !decide (w ∈ noiseWords)))).isEmpty
      then ⟨joinWords ws⟩
      else ⟨joinWords (ws.filter (fun w => !decide (w ∈ noiseWords)))⟩ := by
  have halnum : ∀ w ∈ ws, w ≠ [] ∧ ∀ c ∈ w, Char.isAlphanum c = true :=
    fun w h2 => ⟨(hw w h2).1, fun c hc => ((hw w h2).2 c hc).1⟩
  have hwne : ∀ w ∈ ws, w ≠ [] := fun w h2 => (hw w h2).1
  have hjne : joinWords ws ≠ [] := joinWords_ne_nil hne hwne
  have hlower : (joinWords ws).map Char.toLower = joinWords ws := by
    have hfix : ∀ c ∈ joinWords ws, Char.toLower c = c := by
      intro c hc
      rcases mem_joinWords hc with ⟨w, hw2, hcw⟩ | hsp
      · exact ((hw w hw2).2 c hcw).2
      · subst hsp
        decide
    calc (joinWords ws).map Char.toLower = (joinWords ws).map id :=
        List.map_congr_left hfix
      _ = joinWords ws := List.map_id _
  have hstrip : strip (joinWords ws) = joinWords ws := by
    apply strip_eq_self
    · intro c hc
      obtain ⟨c2, hc2, w, hw2, hcw⟩ := head?_joinWords hne hwne
      rw [hc2, Option.some.injEq] at hc
      subst hc
      exact alnum_not_space (((hw w hw2).2 c2 hcw).1)
    · intro c hc
      obtain ⟨c2, hc2, w, hw2, hcw⟩ := getLast?_joinWords hne hwne
      rw [hc2, Option.some.injEq] at hc
      subst hc
      exact alnum_not_space (((hw w hw2).2 c2 hcw).1)
  have hfin : pipelineFin (joinWords ws) =
      joinWords (ws.filter (fun w => !decide (w ∈ noiseWords))) :=
    pipelineFin_join ws halnum
  unfold normalize_HOTEL_NAME
  rw [show (⟨joinWords ws⟩ : String).toList = joinWords ws from rfl, hstrip,
    if_neg (by rw [isEmpty_false_of_ne_nil hjne]; exact Bool.false_ne_true)]
  simp only [normalizeChars]
  rw [hlower, hstrip, hfin]
  by_cases hz : (joinWords
      (ws.filter (fun w => !decide (w ∈ noiseWords)))).isEmpty
  · rw [if_pos hz, if_pos hz]
  · rw [if_neg hz, if_neg hz]

theorem normalize_joinWords_fixed (ws : List (List Char)) (hne : ws ≠ [])
    (hw : ∀ w ∈ ws, w ≠ [] ∧
      ∀ c ∈ w, Char.isAlphanum c = true ∧ Char.toLower c = c)
    (hnoise : ∀ w ∈ ws, w ∉ noiseWords) :
    normalize_HOTEL_NAME ⟨joinWords ws⟩ = ⟨joinWords ws⟩ := by
  rw [normalize_joinWords_eval ws hne hw,
    show ws.filter (fun w => !decide (w ∈ noiseWords)) = ws from
      List.filter_eq_self.mpr (fun w h2 => by simp [hnoise w h2])]
  by_cases hz : (joinWords ws).isEmpty
  · rw [if_pos hz]
  · rw [if_neg hz]

theorem normalize_mk_eval (l : List Char) :
    normalize_HOTEL_NAME ⟨l⟩ =
      if (strip l).isEmpty then "" else ⟨normalizeChars l⟩ := rfl

theorem normalizeChars_eval (l : List Char) :
    normalizeChars l =
      if (pipelineFin (strip (l.map Char.toLower))).isEmpty
      then strip (l.map Char.toLower)
      else pipelineFin (strip (l.map Char.toLower)) := rfl

/-- Counterexample to claim C3 as stated: stripping the non-alphanumeric
characters of `"s.pa x"` manufactures the stop word `"spa"`, so a second
normalization pass removes it — `normalize(normalize(x)) ≠ normalize(x)`. -/
theorem C3_normalize_not_idempotent :
    normalize_HOTEL_NAME (normalize_HOTEL_NAME "s.pa x") ≠
      normalize_HOTEL_NAME "s.pa x" := by decide

set_option maxHeartbeats 1600000 in
/-- Claim C3 (amended): normalization stabilizes after two applications —
for every text `x`, `normalize (normalize x)` is a fixed point of
`normalize` — but a single application need not be idempotent, because
removing non-alphanumeric characters can create new stop words. -/
theorem C3_normalize_stabilizes (x : String) :
    normalize_HOTEL_NAME (normalize_HOTEL_NAME (normalize_HOTEL_NAME x)) =
      normalize_HOTEL_NAME (normalize_HOTEL_NAME x) := by
  by_cases hg : (strip x.toList).isEmpty
  · have h0 : normalize_HOTEL_NAME x = "" := by
      unfold normalize_HOTEL_NAME
      rw [if_pos hg]
    have h1 : normalize_HOTEL_NAME "" = "" := rfl
    rw [h0, h1, h1]
  · have hx : normalize_HOTEL_NAME x = ⟨normalizeChars x.toList⟩ := by
      unfold normalize_HOTEL_NAME
      rw [if_neg hg]
    have hocne : strip (x.toList.map Char.toLower) ≠ [] := by
      rw [strip_map_toLower]
      intro h
      rw [List.map_eq_nil_iff] at h
      exact hg (by rw [h]; rfl)
    have hocl : (strip (x.toList.map Char.toLower)).map Char.toLower =
        strip (x.toList.map Char.toLower) := map_toLower_strip_map_toLower x.toList
    have hocs : strip (strip (x.toList.map Char.toLower)) =
        strip (x.toList.map Char.toLower) := strip_strip _
    by_cases hfin : (pipelineFin (strip (x.toList.map Char.toLower))).isEmpty
    · -- the pipeline empties out and the code falls back to the lowercased
      -- stripped original, which is already a fixed point
      have hdat : normalizeChars (strip (x.toList.map Char.toLower)) =
          strip (x.toList.map Char.toLower) := by
        rw [normalizeChars_eval, hocl, hocs, if_pos hfin]
      have hdat2 : normalizeChars x.toList =
          strip (x.toList.map Char.toLower) := by
        rw [normalizeChars_eval, if_pos hfin]
      have hx2 : normalize_HOTEL_NAME x =
          ⟨strip (x.toList.map Char.toLower)⟩ := by
        rw [hx, hdat2]
      have hnoc : normalize_HOTEL_NAME ⟨strip (x.toList.map Char.toLower)⟩ =
          ⟨strip (x.toList.map Char.toLower)⟩ := by
        rw [normalize_mk_eval, hocs,
          if_neg (by rw [isEmpty_false_of_ne_nil hocne]
                     exact Bool.false_ne_true),
          hdat]
      rw [hx2, hnoc, hnoc]
    · -- the pipeline produces a canonical word list
      have hwprops : ∀ w ∈ wordsOf (stripSpecial (removeNoiseRuns
          (strip (x.toList.map Char.toLower)))),
          w ≠ [] ∧ ∀ c ∈ w, Char.isAlphanum c = true ∧ Char.toLower c = c := by
        intro w hwmem
        have hp := wordsAux_mem_props (u := []) (w := w)
          (fun c hc => absurd hc (List.not_mem_nil c)) hwmem
        refine ⟨hp.1, fun c hc => ?_⟩
        have hnsp := (hp.2 c hc).1
        have hmem2 : c ∈ stripSpecial (removeNoiseRuns
            (strip (x.toList.map Char.toLower))) := by
          rcases (hp.2 c hc).2 with h | h
          · exact absurd h (List.not_mem_nil c)
          · exact h
        have hkept := (List.mem_filter.mp hmem2).2
        have hmem3 := (List.mem_filter.mp hmem2).1
        exact ⟨kept_not_space_alnum hkept hnsp,
          mem_strip_map_toLower_fixed (mem_removeNoiseRuns hmem3)⟩
      have hwsne : wordsOf (stripSpecial (removeNoiseRuns
          (strip (x.toList.map Char.toLower)))) ≠ [] := by
        intro h
        apply hfin
        show (pipelineFin (strip (x.toList.map Char.toLower))).isEmpty = true
        rw [show pipelineFin (strip (x.toList.map Char.toLower)) =
          joinWords (wordsOf (stripSpecial (removeNoiseRuns
            (strip (x.toList.map Char.toLower))))) from rfl, h]
        rfl
      have hnx : normalize_HOTEL_NAME x = ⟨joinWords (wordsOf (stripSpecial
          (removeNoiseRuns (strip (x.toList.map Char.toLower)))))⟩ := by
        rw [hx]
        congr 1
        rw [normalizeChars_eval, if_neg hfin]
        rfl
      have heval := normalize_joinWords_eval _ hwsne hwprops
      by_cases hz : (joinWords ((wordsOf (stripSpecial (removeNoiseRuns
          (strip (x.toList.map Char.toLower))))).filter
          (fun w => !decide (w ∈ noiseWords)))).isEmpty
      · rw [if_pos hz] at heval
        rw [hnx, heval, heval]
      · rw [if_neg hz] at heval
        have hzfix : normalize_HOTEL_NAME ⟨joinWords ((wordsOf (stripSpecial
            (removeNoiseRuns (strip (x.toList.map Char.toLower))))).filter
            (fun w => !decide (w ∈ noiseWords)))⟩ =
            ⟨joinWords ((wordsOf (stripSpecial (removeNoiseRuns
              (strip (x.toList.map Char.toLower))))).filter
              (fun w => !decide (w ∈ noiseWords)))⟩ := by
        { apply normalize_joinWords_fixed
          · intro h
            apply hz
            rw [h]
            rfl
          · intro w h2
            exact hwprops w (List.mem_filter.mp h2).1
          · intro w h2
            have hflt := (List.mem_filter.mp h2).2
            simp only [Bool.not_eq_true', decide_eq_false_iff_not] at hflt
            exact hflt }
        rw [hnx, heval, hzfix]

/-- Claim C1: for every non-empty candidate list the code's tiered winner
selection (`bestRef`, first index of Tier 1; else first maximal-score index
of Tier 2; else of Tier 3; else overall) coincides with the specification's
tier-precedence resolver (`spec_resolve`); in particular a score-100
candidate at delta 0.2 beats a score-92 candidate at delta 0.0. -/
theorem C1_resolver_tiered_precedence :
    (∀ (cands : List Cand) (threshold : ℕ) (tol : ℚ), cands ≠ [] →
      spec_resolve cands threshold tol = some (bestRef cands threshold tol)) ∧
    (∀ rA rB : Row,
      bestRef [⟨rA, 100, 1 / 5⟩, ⟨rB, 92, 0⟩] 85 3 = 0) := by
  constructor
  · intro cands threshold tol hne
    have hlen : cands.length ≠ 0 := fun h => hne (List.length_eq_zero.mp h)
    unfold spec_resolve bestRef
    have e1 : firstIdxWhere
        (fun c => c.score == 100 && decide (c.dist_delta ≤ tol)) cands =
        (tier1 cands tol).head? :=
      (firstIdxWhere_eq_head_filter_range
        (fun c => c.score == 100 && decide (c.dist_delta ≤ tol)) cands).symm
    rw [e1]
    cases ht1 : tier1 cands tol with
    | cons i tl => simp only [List.head?_cons]
    | nil =>
      simp only [List.head?_nil]
      by_cases h2 : (tier2 cands).isEmpty
      · have h2n : firstMaxIdx cands
            (fun c => 90 < c.score && decide (c.dist_delta ≤ 2)) = none :=
          firstMaxIdx_eq_none cands _ (List.isEmpty_iff.mp h2)
        rw [h2n, if_neg (by simp [h2])]
        by_cases h3 : (tier3 cands threshold).isEmpty
        · have h3n : firstMaxIdx cands (fun c => threshold ≤ c.score) = none :=
            firstMaxIdx_eq_none cands _ (List.isEmpty_iff.mp h3)
          rw [h3n, if_neg (by simp [h3])]
          have hrt : ((List.range cands.length).filter
              (fun i => (fun _ => true) (cands.getD i default))) =
                List.range cands.length := by
            simp
          have := firstMaxIdx_eq_pyMaxBy cands (fun _ => true)
            (by rw [hrt, ne_eq, List.range_eq_nil]; exact hlen)
          rw [hrt] at this
          exact this
        · simp only [Bool.not_eq_true] at h3
          have h3ne : tier3 cands threshold ≠ [] := by
            rw [ne_eq, ← List.isEmpty_iff, h3]
            exact Bool.false_ne_true
          have h3s := firstMaxIdx_eq_pyMaxBy cands
            (fun c => threshold ≤ c.score) h3ne
          rw [h3s, if_pos (by simp [h3])]
          rfl
      · simp only [Bool.not_eq_true] at h2
        have h2ne : tier2 cands ≠ [] := by
          rw [ne_eq, ← List.isEmpty_iff, h2]
          exact Bool.false_ne_true
        have h2s := firstMaxIdx_eq_pyMaxBy cands
          (fun c => 90 < c.score && decide (c.dist_delta ≤ 2)) h2ne
        rw [h2s, if_pos (by simp [h2])]
        rfl
  · intro rA rB
    have hd : decide ((|0 - 0| : ℚ) ≤ 2) = decide ((|0 - 0| : ℚ) ≤ 2) := rfl
    have hd1 : decide (((1 : ℚ) / 5) ≤ 3) = true := decide_eq_true (by norm_num)
    have ht1 : tier1 [⟨rA, 100, 1 / 5⟩, ⟨rB, 92, 0⟩] 3 = [0] := by
      unfold tier1
      rw [show List.range (List.length
          [(⟨rA, 100, 1 / 5⟩ : Cand), ⟨rB, 92, 0⟩]) = [0, 1] from rfl]
      rw [List.filter_cons, List.filter_cons, List.filter_nil]
      simp only [candScore, candDelta, List.getD_cons_zero, List.getD_cons_succ, hd1]
      norm_num
    unfold bestRef
    rw [ht1]

/-- Witness for C1: the tier-equivalence applied to a concrete two-candidate
list. -/
theorem C1_resolver_tiered_precedence_witness :
    ([(⟨⟨"a", .na, .na, .na, 1, "u"⟩, 100, 1 / 5⟩ : Cand),
        ⟨⟨"b", .na, .na, .na, 1, "v"⟩, 92, 0⟩] : List Cand) ≠ [] ∧
    spec_resolve
        [(⟨⟨"a", .na, .na, .na, 1, "u"⟩, 100, 1 / 5⟩ : Cand),
          ⟨⟨"b", .na, .na, .na, 1, "v"⟩, 92, 0⟩] 85 3 =
      some (bestRef
        [(⟨⟨"a", .na, .na, .na, 1, "u"⟩, 100, 1 / 5⟩ : Cand),
          ⟨⟨"b", .na, .na, .na, 1, "v"⟩, 92, 0⟩] 85 3) :=
  ⟨List.cons_ne_nil _ _,
    C1_resolver_tiered_precedence.1 _ 85 3 (List.cons_ne_nil _ _)⟩

/-- Claim C4: a secondary listing is a candidate for a primary listing if
and only if its normalized-name similarity score reaches the threshold and
the absolute distance delta is within the tolerance (`names` ranges over
the distinct normalized secondary names, in the arbitrary order Python's
`list(set(...))` produces). -/
theorem C4_candidate_generation_iff (scoreFn : String → String → ℕ)
    (names : List String) (rowsB : List Row) (rowA : Row) (threshold : ℕ)
    (tol : ℚ) (c : Cand)
    (hnames : names.Perm
      ((rowsB.map (fun rb => normalize_HOTEL_NAME rb.HOTEL_NAME)).dedup)) :
    c ∈ validMatchesInfo scoreFn names rowsB rowA threshold tol ↔
      c.rowB ∈ rowsB ∧
      c.score = scoreFn (normalize_HOTEL_NAME rowA.HOTEL_NAME)
        (normalize_HOTEL_NAME c.rowB.HOTEL_NAME) ∧
      threshold ≤ c.score ∧
      c.dist_delta = |rowA.DISTANCE - c.rowB.DISTANCE| ∧
      c.dist_delta ≤ tol := by
  constructor
  · exact mem_validMatchesInfo_props
  · rintro ⟨hmem, hscore, hth, hdelta, htol⟩
    have hnm : normalize_HOTEL_NAME c.rowB.HOTEL_NAME ∈ names := by
      rw [hnames.mem_iff, List.mem_dedup]
      exact List.mem_map_of_mem _ hmem
    obtain ⟨rb, sc, dd⟩ := c
    simp only at hscore hth hdelta htol hnm hmem ⊢
    rw [hscore, hdelta]
    exact validMatchesInfo_mem_of scoreFn names rowsB rowA threshold tol rb
      hmem hnm (hscore ▸ hth) (hdelta ▸ htol)

/-- Witness for C4: the characterization applied to a concrete one-row
secondary table, with the name list being exactly the deduplicated
normalized names. -/
theorem C4_candidate_generation_iff_witness :
    (⟨⟨"Alpha Hotel", .na, .na, .na, 1, "ua"⟩, 97, 1 / 2⟩ : Cand) ∈
        validMatchesInfo (fun _ _ => 97)
          (([(⟨"Alpha Hotel", .na, .na, .na, 1, "ua"⟩ : Row)].map
            (fun rb => normalize_HOTEL_NAME rb.HOTEL_NAME)).dedup)
          [⟨"Alpha Hotel", .na, .na, .na, 1, "ua"⟩]
          ⟨"Hotel Alpha", .na, .na, .na, 1 / 2, "ub"⟩ 85 3 ↔
      (⟨"Alpha Hotel", .na, .na, .na, 1, "ua"⟩ : Row) ∈
          [(⟨"Alpha Hotel", .na, .na, .na, 1, "ua"⟩ : Row)] ∧
        (97 : ℕ) = 97 ∧
        (85 : ℕ) ≤ 97 ∧
        (1 / 2 : ℚ) = |(1 / 2 : ℚ) - 1| ∧
        (1 / 2 : ℚ) ≤ 3 :=
  C4_candidate_generation_iff (fun _ _ => 97) _
    [⟨"Alpha Hotel", .na, .na, .na, 1, "ua"⟩]
    ⟨"Hotel Alpha", .na, .na, .na, 1 / 2, "ub"⟩ 85 3
    ⟨⟨"Alpha Hotel", .na, .na, .na, 1, "ua"⟩, 97, 1 / 2⟩
    (List.Perm.refl _)

/-- Claim C2: the merger emits exactly one `MergedRecord` per candidate;
the record at the winner index carries `"YES"` and all others `"NO"`, so a
non-empty candidate set yields exactly one recommended record; an empty
candidate set emits nothing. -/
theorem C2_one_record_per_candidate (scoreFn : String → String → ℕ)
    (names : List String) (rowsB : List Row) (rowA : Row) (threshold : ℕ)
    (tol : ℚ) :
    (validMatchesInfo scoreFn names rowsB rowA threshold tol = [] →
      processPrimary scoreFn names rowsB rowA threshold tol = []) ∧
    (processPrimary scoreFn names rowsB rowA threshold tol).length =
      (validMatchesInfo scoreFn names rowsB rowA threshold tol).length ∧
    (∀ i, i < (validMatchesInfo scoreFn names rowsB rowA threshold tol).length →
      ((processPrimary scoreFn names rowsB rowA threshold tol).get? i).map
          (fun r => r.Recommended_Match) =
        some (if i = bestRef (validMatchesInfo scoreFn names rowsB rowA threshold tol)
            threshold tol then "YES" else "NO")) ∧
    (validMatchesInfo scoreFn names rowsB rowA threshold tol ≠ [] →
      (processPrimary scoreFn names rowsB rowA threshold tol).countP
        (fun r => r.Recommended_Match == "YES") = 1) := by
  refine ⟨?_, ?_, ?_, ?_⟩
  · intro h
    unfold processPrimary
    rw [h]
    rfl
  · unfold processPrimary
    by_cases hc : (validMatchesInfo scoreFn names rowsB rowA threshold tol).isEmpty
    · rw [if_pos hc, List.isEmpty_iff.mp hc]
      rfl
    · rw [if_neg hc, List.length_map, List.enum_length]
  · intro i h
    have hcne : validMatchesInfo scoreFn names rowsB rowA threshold tol ≠ [] :=
      List.length_pos.mp (lt_of_le_of_lt (Nat.zero_le i) h)
    have hc : (validMatchesInfo scoreFn names rowsB rowA threshold tol).isEmpty = false := by
      rw [List.isEmpty_eq_false_iff_exists_mem]
      exact List.exists_mem_of_ne_nil _ hcne
    simp only [processPrimary]
    rw [if_neg (by rw [hc]; exact Bool.false_ne_true)]
    have hlen2 : i < (List.map
        (fun ic => mergeRecord rowA ic.2
          (ic.1 == bestRef (validMatchesInfo scoreFn names rowsB rowA threshold tol)
            threshold tol))
        (validMatchesInfo scoreFn names rowsB rowA threshold tol).enum).length := by
      rw [List.length_map, List.enum_length]
      exact h
    rw [List.get?_eq_get hlen2, List.get_eq_getElem, List.getElem_map,
      List.getElem_enum, Option.map_some']
    simp only [mergeRecord]
    by_cases hb : i = bestRef (validMatchesInfo scoreFn names rowsB rowA threshold tol)
        threshold tol
    · rw [if_pos hb, if_pos (beq_iff_eq.mpr hb)]
    · rw [if_neg hb, if_neg (by rw [beq_iff_eq]; exact hb)]
  · intro hne
    unfold processPrimary
    rw [if_neg (by rw [Bool.not_eq_true, List.isEmpty_eq_false_iff_exists_mem]
                   exact List.exists_mem_of_ne_nil _ hne)]
    rw [List.countP_map]
    rw [List.countP_congr (q := fun ic : ℕ × Cand =>
      ic.1 == bestRef (validMatchesInfo scoreFn names rowsB rowA threshold tol)
        threshold tol) ?hcong]
    case hcong =>
      intro x _
      simp only [Function.comp, mergeRecord]
      by_cases hb : x.1 = bestRef (validMatchesInfo scoreFn names rowsB rowA threshold tol)
          threshold tol
      · rw [beq_iff_eq.mpr hb, if_pos rfl]
        exact iff_of_true rfl rfl
      · rw [beq_eq_false_iff_ne.mpr hb]
        simp
    rw [show (fun ic : ℕ × Cand =>
        ic.1 == bestRef (validMatchesInfo scoreFn names rowsB rowA threshold tol)
          threshold tol) =
      ((fun i => i == bestRef (validMatchesInfo scoreFn names rowsB rowA threshold tol)
          threshold tol) ∘ Prod.fst) from rfl]
    rw [← List.countP_map, List.enum_map_fst, ← List.count_eq_countP]
    exact List.count_eq_one_of_mem (List.nodup_range _)
      (List.mem_range.mpr (bestRef_lt _ _ _ hne))

/-- Witness for C2: the exactly-one-recommended-record property applied to
a concrete one-candidate run. -/
theorem C2_one_record_per_candidate_witness :
    validMatchesInfo (fun _ _ => 97) [normalize_HOTEL_NAME "Alpha Hotel"]
        [⟨"Alpha Hotel", .na, .na, .na, 1, "ua"⟩]
        ⟨"Hotel Alpha", .na, .na, .na, 1, "ub"⟩ 85 3 ≠ [] ∧
      (processPrimary (fun _ _ => 97) [normalize_HOTEL_NAME "Alpha Hotel"]
          [⟨"Alpha Hotel", .na, .na, .na, 1, "ua"⟩]
          ⟨"Hotel Alpha", .na, .na, .na, 1, "ub"⟩ 85 3).countP
        (fun r => r.Recommended_Match == "YES") = 1 :=
  have hmem := validMatchesInfo_mem_of (fun _ _ => 97)
    [normalize_HOTEL_NAME "Alpha Hotel"]
    [⟨"Alpha Hotel", .na, .na, .na, 1, "ua"⟩]
    ⟨"Hotel Alpha", .na, .na, .na, 1, "ub"⟩ 85 3
    ⟨"Alpha Hotel", .na, .na, .na, 1, "ua"⟩
    (List.mem_singleton.mpr rfl) (List.mem_singleton.mpr rfl)
    (by norm_num) (by norm_num)
  have hne := List.ne_nil_of_mem hmem
  ⟨hne,
    (C2_one_record_per_candidate (fun _ _ => 97)
      [normalize_HOTEL_NAME "Alpha Hotel"]
      [⟨"Alpha Hotel", .na, .na, .na, 1, "ua"⟩]
      ⟨"Hotel Alpha", .na, .na, .na, 1, "ub"⟩ 85 3).2.2.2 hne⟩

/-- Counterexample to claim C6 as stated: the pipeline emits a record whose
recorded `Dist_Delta` is `0` while the exact absolute distance delta of its
own primary/secondary rows is `1/2000` km — the code stores
`round(delta, 3)`, not the exact delta. -/
theorem C6_recorded_delta_not_exact :
    (processPrimary (fun _ _ => 100) [normalize_HOTEL_NAME "Alpha Hotel"]
        [⟨"Alpha Hotel", .na, .na, .na, 1 / 2000, "ua"⟩]
        ⟨"Hotel Alpha", .na, .na, .na, 0, "ub"⟩ 85 3).map
      (fun r => (r.Dist_Delta, |r.primary.DISTANCE - r.secondary.DISTANCE|)) =
      [((0 : ℚ), (1 / 2000 : ℚ))] ∧ (0 : ℚ) ≠ 1 / 2000 := by
  constructor
  · rw [processPrimary_sample]
    simp only [List.map_cons, List.map_nil, mergeRecord]
    rw [show |(0 : ℚ) - 1 / 2000| = 1 / 2000 by
      rw [zero_sub, abs_neg, abs_of_nonneg (by norm_num)]]
    norm_num [pyRound3, roundHalfEven]
  · norm_num

/-- Claim C6 (amended): every emitted record stores `Dist_Delta =
round(|primary.distance − secondary.distance|, 3)` (banker's rounding to 3
decimals) rather than the exact delta; the exact delta is always within the
configured tolerance, and whenever the tolerance is an integer multiple of
0.001 km (as the default 3.0 is) the rounded recorded value also stays
within the tolerance. -/
theorem C6_dist_delta_rounded (scoreFn : String → String → ℕ)
    (names : List String) (rowsB : List Row) (rowA : Row) (threshold : ℕ)
    (tol : ℚ) (rec : MergedRecord)
    (hrec : rec ∈ processPrimary scoreFn names rowsB rowA threshold tol) :
    rec.Dist_Delta = pyRound3 |rowA.DISTANCE - rec.secondary.DISTANCE| ∧
    |rowA.DISTANCE - rec.secondary.DISTANCE| ≤ tol ∧
    ((tol * 1000).den = 1 → rec.Dist_Delta ≤ tol) := by
  simp only [processPrimary] at hrec
  by_cases hc : (validMatchesInfo scoreFn names rowsB rowA threshold tol).isEmpty
  · rw [if_pos hc] at hrec
    exact absurd hrec (List.not_mem_nil _)
  · rw [if_neg hc, List.mem_map] at hrec
    obtain ⟨ic, hicmem, hic⟩ := hrec
    obtain ⟨i, c⟩ := ic
    have hcmem : c ∈ validMatchesInfo scoreFn names rowsB rowA threshold tol := by
      have hm := List.mem_enum hicmem
      rw [hm.2]
      exact List.getElem_mem _
    obtain ⟨_, _, _, hdeq, hdle⟩ := mem_validMatchesInfo_props hcmem
    subst hic
    refine ⟨?_, ?_, ?_⟩
    · simp only [mergeRecord]
      rw [hdeq]
    · simp only [mergeRecord]
      rw [← hdeq]
      exact hdle
    · intro hden
      simp only [mergeRecord]
      exact pyRound3_le _ _ hdle hden

/-- Witness for the amended C6: the rounding relation applied to the
concrete emitted record of the sample run. -/
theorem C6_dist_delta_rounded_witness :
    (mergeRecord ⟨"Hotel Alpha", .na, .na, .na, 0, "ub"⟩
        ⟨⟨"Alpha Hotel", .na, .na, .na, 1 / 2000, "ua"⟩, 100,
          |(0 : ℚ) - 1 / 2000|⟩ true).Dist_Delta =
      pyRound3 |(0 : ℚ) -
        (mergeRecord ⟨"Hotel Alpha", .na, .na, .na, 0, "ub"⟩
          ⟨⟨"Alpha Hotel", .na, .na, .na, 1 / 2000, "ua"⟩, 100,
            |(0 : ℚ) - 1 / 2000|⟩ true).secondary.DISTANCE| ∧
    |(0 : ℚ) -
        (mergeRecord ⟨"Hotel Alpha", .na, .na, .na, 0, "ub"⟩
          ⟨⟨"Alpha Hotel", .na, .na, .na, 1 / 2000, "ua"⟩, 100,
            |(0 : ℚ) - 1 / 2000|⟩ true).secondary.DISTANCE| ≤ 3 ∧
    (((3 : ℚ) * 1000).den = 1 →
      (mergeRecord ⟨"Hotel Alpha", .na, .na, .na, 0, "ub"⟩
        ⟨⟨"Alpha Hotel", .na, .na, .na, 1 / 2000, "ua"⟩, 100,
          |(0 : ℚ) - 1 / 2000|⟩ true).Dist_Delta ≤ 3) :=
  C6_dist_delta_rounded (fun _ _ => 100) [normalize_HOTEL_NAME "Alpha Hotel"]
    [⟨"Alpha Hotel", .na, .na, .na, 1 / 2000, "ua"⟩]
    ⟨"Hotel Alpha", .na, .na, .na, 0, "ub"⟩ 85 3 _
    (by rw [processPrimary_sample]; exact List.mem_singleton.mpr rfl)

/-- Claim C8: numeric coercion is a total function: `coerce("$1,234.56") ==
1234.56`, `coerce(None) == 0.0`, `coerce("N/A") == 0.0`, and every missing
or unparseable (digit-free) input yields `0.0` without failing. -/
theorem C8_extract_numeric_total :
    extract_numeric (.str "$1,234.56") = 1234.56 ∧
    extract_numeric .na = 0 ∧
    extract_numeric (.str "N/A") = 0 ∧
    (∀ s : String, (∀ c ∈ s.toList, c.isDigit = false) →
      extract_numeric (.str s) = 0) := by
  refine ⟨?_, rfl, rfl, ?_⟩
  · have h : extract_numeric (.str "$1,234.56") =
        tokenToRat ['1', '2', '3', '4', '.', '5', '6'] := rfl
    rw [h,
      show tokenToRat ['1', '2', '3', '4', '.', '5', '6'] =
        (digitsToNat ['1', '2', '3', '4'] : ℚ) +
          (digitsToNat ['5', '6'] : ℚ) / (10 ^ 2 : ℚ) from rfl,
      show digitsToNat ['1', '2', '3', '4'] = 1234 from by decide,
      show digitsToNat ['5', '6'] = 56 from by decide]
    norm_num
  · intro s hs
    have h : findNumToken (strip (List.filter (fun c => !(c == ',')) s.toList)) =
        none := by
      apply findNumToken_eq_none
      intro c hc
      exact hs c (List.mem_filter.mp (mem_of_mem_strip hc)).1
    simp only [extract_numeric, h]

/-- Witness for C8: a concrete digit-free input discharging the hypothesis
of the universally quantified conjunct. -/
theorem C8_extract_numeric_total_witness :
    (∀ c ∈ "no digits here!".toList, c.isDigit = false) ∧
      extract_numeric (.str "no digits here!") = 0 :=
  ⟨by decide, C8_extract_numeric_total.2.2.2 "no digits here!" (by decide)⟩

/-- Claim C5: the cheapest-price rule: with coerced prices `p` (primary)
and `s` (secondary), primary wins when `0 < p < s` or `p > 0 and s == 0`,
symmetrically for the secondary, and all remaining cases keep the primary
price tagged `"Same or Unavailable"`; coercion of missing or textual prices
is non-negative, and for non-negative coerced prices the chosen cheapest
price is non-positive only when both sides are non-positive. -/
theorem C5_cheapest_price_rule :
    (∀ p s : ℚ, ∀ ub ua : String, 0 < p → (p < s ∨ s = 0) →
      cheapestChoice p s ub ua = ⟨p, "Booking", ub⟩) ∧
    (∀ p s : ℚ, ∀ ub ua : String, 0 < s → (s < p ∨ p = 0) →
      cheapestChoice p s ub ua = ⟨s, "Agoda", ua⟩) ∧
    (∀ p s : ℚ, ∀ ub ua : String, ¬(0 < p ∧ (p < s ∨ s = 0)) →
      ¬(0 < s ∧ (s < p ∨ p = 0)) →
      cheapestChoice p s ub ua = ⟨p, "Same or Unavailable", ub⟩) ∧
    (extract_numeric .na = 0 ∧ ∀ t : String, 0 ≤ extract_numeric (.str t)) ∧
    (∀ p s : ℚ, ∀ ub ua : String, 0 ≤ p → 0 ≤ s →
      (cheapestChoice p s ub ua).price ≤ 0 → p ≤ 0 ∧ s ≤ 0) := by
  refine ⟨?_, ?_, ?_, ⟨rfl, extract_numeric_str_nonneg⟩, ?_⟩
  · intro p s ub ua hp hps
    unfold cheapestChoice
    rw [if_pos]
    rcases hps with h | h
    · exact Or.inl ⟨hp, h⟩
    · exact Or.inr ⟨hp, h⟩
  · intro p s ub ua hs hsp
    unfold cheapestChoice
    rw [if_neg, if_pos]
    · rcases hsp with h | h
      · exact Or.inl ⟨hs, h⟩
      · exact Or.inr ⟨hs, h⟩
    · rintro (⟨hp, hlt⟩ | ⟨hp, h0⟩) <;> rcases hsp with h | h <;> linarith
  · intro p s ub ua h1 h2
    unfold cheapestChoice
    rw [if_neg, if_neg]
    · tauto
    · tauto
  · intro p s ub ua hp hs hle
    unfold cheapestChoice at hle
    split_ifs at hle with h1 h2
    · rcases h1 with ⟨h, _⟩ | ⟨h, _⟩ <;> simp only at hle <;> linarith
    · rcases h2 with ⟨h, _⟩ | ⟨h, _⟩ <;> simp only at hle <;> linarith
    · simp only at hle
      refine ⟨hle, ?_⟩
      by_contra hs'
      push_neg at hs'
      exact h2 (Or.inr ⟨hs', le_antisymm hle hp⟩)

/-- Witness for C5: a concrete pair where the secondary price wins. -/
theorem C5_cheapest_price_rule_witness :
    (0 : ℚ) < 90 ∧
      cheapestChoice 100 90 "https://b.example" "https://a.example" =
        ⟨90, "Agoda", "https://a.example"⟩ :=
  ⟨by norm_num,
    C5_cheapest_price_rule.2.1 100 90 "https://b.example" "https://a.example"
      (by norm_num) (Or.inl (by norm_num))⟩

/-- Claim C9: a numeric limit equal to `0` in any of the four threshold
slots of the business filter behaves exactly as an omitted limit, because
each limit is gated on Python truthiness before being applied. -/
theorem C9_zero_limit_is_omitted (df : List URow) (a b c : Limit) :
    filter_business_logic df (.num 0) a b c =
      filter_business_logic df .none a b c ∧
    filter_business_logic df a (.num 0) b c =
      filter_business_logic df a .none b c ∧
    filter_business_logic df a b (.num 0) c =
      filter_business_logic df a b .none c ∧
    filter_business_logic df a b c (.num 0) =
      filter_business_logic df a b c .none := by
  have happ : ∀ (keep : URow → ℚ → Bool) (rows : List URow),
      applyLimit (.num 0) keep rows = applyLimit .none keep rows := by
    intro keep rows
    simp [applyLimit, limitActive]
  refine ⟨?_, ?_, ?_, ?_⟩ <;> simp only [filter_business_logic, happ]

/-- Claim C10: a supplied limit that is a non-empty, non-numeric string
(here `"abc"`) makes the business filter raise from the `float` conversion
and return no table at all, while the same call without the bad limit
returns the (dropna-surviving) rows. -/
theorem C10_bad_string_limit_raises :
    filter_business_logic [⟨some 100, some 8, some 50, some 1⟩]
        (.str "abc") .none .none .none = none ∧
    filter_business_logic [⟨some 100, some 8, some 50, some 1⟩]
        .none .none .none .none = some [⟨some 100, some 8, some 50, some 1⟩] :=
  ⟨rfl, rfl⟩

/-- Claim C7 (evaluating the code at the failing input): on a table whose
surviving ratings are all equal, the unguarded min-max normalization
divides zero by zero, so every produced `VALUE_SCORE` is `NaN` (modelled
`none`) instead of a well-defined score. -/
theorem C7_scorer_divides_by_zero :
    (calculate_hotel_value_score
        [⟨some 100, some 8, some 50, some 1⟩, ⟨some 120, some 8, some 40, some 2⟩]
        0.7 0.3).map (fun r => r.VALUE_SCORE) = [none, none] := by
  have hfm : List.filterMap priceRating?
      [(⟨some 100, some 8, some 50, some 1⟩ : URow), ⟨some 120, some 8, some 40, some 2⟩]
      = [((100 : ℚ), (8 : ℚ)), ((120 : ℚ), (8 : ℚ))] := rfl
  have h8 : ((8 : ℚ) - 8) = 0 := by norm_num
  simp only [calculate_hotel_value_score, hfm, List.map_cons, List.map_nil,
    List.foldl_cons, List.foldl_nil, min_self, max_self, qdiv?, h8, if_pos,
    Option.map_none']

end TravelDeal
